import Mathlib

/-!
# Verification of the elpatcher orchestration core

Shallow embedding of the orchestration engine of the `elpatcher` repository
(`src/patcher/...`) and proofs about the claims of its specification.

Conventions of the embedding:
* Python text is modelled as `String` where no character-level reasoning is
  needed and as `List Char` where it is (the state codec).
* Python `datetime` values are modelled by their ISO serialization (a string):
  `datetime.isoformat` is injective and `datetime.fromisoformat` inverts it, so
  this is exact at the "serialized precision" the spec itself uses.
* Fallible Python calls (network, subprocess, parsing) are modelled as
  `Except PyErr α` inputs; `try/except` blocks become `match`es on them.
-/

namespace Elpatcher

/-- Python exception text (`str(e)`). -/
abbrev PyErr := String

/-! ## CI status aggregation (`src/patcher/github/models.py`, `client.py`) -/

/-- `CIStatus` enum from `src/patcher/github/models.py`. -/
inductive CIStatus where
  | pending
  | success
  | failure
  | error
  | cancelled
deriving DecidableEq, Repr

/-- The output object attached to a PyGithub check run (`run.output`):
`summary` and `text` fields, each possibly `None`. -/
structure CheckOutput where
  summary : Option String
  text : Option String
deriving DecidableEq, Repr

/-- A raw check run as `GitHubClient.get_ci_status` reads it from PyGithub:
`run.status`, `run.conclusion`, `run.name`, `run.html_url`, `run.output`. -/
structure CheckRunRaw where
  name : String
  status : String
  conclusion : Option String
  url : Option String
  output : Option CheckOutput
deriving DecidableEq, Repr

/-- `CICheck` from `src/patcher/github/models.py`. -/
structure CICheck where
  name : String
  status : CIStatus
  conclusion : Option String
  url : Option String
  output : Option String
deriving DecidableEq, Repr

/-- `CIResult` from `src/patcher/github/models.py`. -/
structure CIResult where
  status : CIStatus
  checks : List CICheck
deriving DecidableEq, Repr

/-- Python `a or b` on optional strings: `None` and `""` are falsy. -/
def pyOrStr (a b : Option String) : Option String :=
  match a with
  | some s => if s = "" then b else some s
  | none => b

/-- `output_summary = run.output.summary or run.output.text if run.output else None`
(the output-extraction step of `get_ci_status`). -/
def outputSummary (o : Option CheckOutput) : Option String :=
  match o with
  | some out => pyOrStr out.summary out.text
  | none => none

/-- The per-run normalized status of `GitHubClient.get_ci_status`:
not completed → pending; else by conclusion (`success`/`failure`/`cancelled`/
`skipped`, anything else → error). -/
def runStatus (run : CheckRunRaw) : CIStatus :=
  if run.status ≠ "completed" then .pending
  else match run.conclusion with
    | some "success" => .success
    | some "failure" => .failure
    | some "cancelled" => .cancelled
    | some "skipped" => .cancelled
    | _ => .error

/-- The overall-status update of one loop step of `get_ci_status`:
a not-completed run assigns `pending`, a completed `failure` assigns `failure`,
a completed conclusion outside the four known ones assigns `error`, and
`success`/`cancelled`/`skipped` leave the accumulator unchanged. -/
def overallStep (acc : CIStatus) (run : CheckRunRaw) : CIStatus :=
  if run.status ≠ "completed" then .pending
  else match run.conclusion with
    | some "success" => acc
    | some "failure" => .failure
    | some "cancelled" => acc
    | some "skipped" => acc
    | _ => .error

/-- The `CICheck` record `get_ci_status` appends for one run. -/
def mkCICheck (run : CheckRunRaw) : CICheck :=
  { name := run.name
    status := runStatus run
    conclusion := run.conclusion
    url := run.url
    output := outputSummary run.output }

/-- The loop of `GitHubClient.get_ci_status` over the check runs of the last
commit: `overall_status` starts at `SUCCESS` and is reassigned by each run as
in `overallStep`; every run is appended to `checks`. -/
def aggregateCheckRuns (runs : List CheckRunRaw) : CIResult :=
  { status := runs.foldl overallStep .success
    checks := runs.map mkCICheck }

/-- `GitHubClient.get_ci_status` (the part after the PyGithub fetches): with no
commits the result is `pending` with no checks, otherwise the check runs of the
last commit are aggregated. -/
def get_ci_status (commits : List (List CheckRunRaw)) : CIResult :=
  match commits.getLast? with
  | none => { status := .pending, checks := [] }
  | some runs => aggregateCheckRuns runs

/-- The value a run assigns to `overall_status`, if any: `pending` when not
completed, `failure`/`error` for the poisoning conclusions, nothing otherwise. -/
def overallAssign (run : CheckRunRaw) : Option CIStatus :=
  if run.status ≠ "completed" then some .pending
  else match run.conclusion with
    | some "success" => none
    | some "failure" => some .failure
    | some "cancelled" => none
    | some "skipped" => none
    | _ => some .error

theorem overallStep_eq (acc : CIStatus) (run : CheckRunRaw) :
    overallStep acc run = (overallAssign run).getD acc := by
  unfold overallStep overallAssign
  split
  · rfl
  · split <;> rfl

theorem foldl_overallStep_eq (runs : List CheckRunRaw) (acc : CIStatus) :
    runs.foldl overallStep acc = ((runs.filterMap overallAssign).getLast?).getD acc := by
  induction runs generalizing acc with
  | nil => rfl
  | cons r rs ih =>
      rw [List.foldl_cons, ih, overallStep_eq]
      rcases h : overallAssign r with _ | v
      · simp [List.filterMap_cons, h]
      · simp only [List.filterMap_cons, h]
        rcases hl : rs.filterMap overallAssign with _ | ⟨w, l⟩
        · simp
        · rw [List.getLast?_cons_cons]
          rcases hz : (w :: l).getLast? with _ | z
          · rw [List.getLast?_eq_none_iff] at hz
            exact absurd hz (by simp)
          · simp [hz]

/-- A check run that is still executing (`run.status ≠ "completed"`). -/
def pendingRun : CheckRunRaw :=
  { name := "build", status := "in_progress", conclusion := none, url := none, output := none }

/-- A check run that completed with conclusion `"failure"`. -/
def failedRun : CheckRunRaw :=
  { name := "tests", status := "completed", conclusion := some "failure", url := none,
    output := none }

/-- C1, counterexample: for the check list `[pending, failure]` the code's
overall verdict is `failure`, not `pending` — the loop of
`GitHubClient.get_ci_status` reassigns `overall_status` at every poisoning
check, so a failure seen *after* a pending check overwrites the pending
verdict; pending does not take priority over later failures. -/
theorem get_ci_status_pending_failure_is_failure :
    (get_ci_status [[pendingRun, failedRun]]).status = CIStatus.failure ∧
    (get_ci_status [[pendingRun, failedRun]]).status ≠ CIStatus.pending := by
  constructor
  · rfl
  · decide

/-- C1, amended: the overall verdict of `get_ci_status` is the status assigned
by the *last* check that assigns one (`pending` for a not-yet-completed check,
`failure`/`error` for those conclusions), defaulting to `success`; so a pending
check dictates the verdict only when no later check concludes with failure or
error. In particular `[failure, pending]` is `pending` but `[pending, failure]`
is `failure`, and the spec's other examples hold: `[success, failure]` is
`failure`, `[success, success]` is `success`, `[]` is `success`. -/
theorem get_ci_status_last_assignment_wins (runs : List CheckRunRaw) :
    (get_ci_status [runs]).status
      = ((runs.filterMap overallAssign).getLast?).getD CIStatus.success ∧
    (aggregateCheckRuns runs).status
      = ((runs.filterMap overallAssign).getLast?).getD CIStatus.success ∧
    (get_ci_status [[failedRun, pendingRun]]).status = CIStatus.pending ∧
    (get_ci_status [[]]).status = CIStatus.success := by
  refine ⟨?_, ?_, rfl, rfl⟩
  · show (aggregateCheckRuns runs).status = _
    exact foldl_overallStep_eq runs .success
  · exact foldl_overallStep_eq runs .success

/-! ## Dedup/concurrency guard (`src/patcher/server/webhooks.py`)

`_processing_issues` is a Python dict from key strings to booleans; it is
modelled as an association list with Python-dict `get`/assignment/`pop`
semantics. -/

/-- Python-dict model: a list of key/value pairs with at most one live binding
per key (lookups see the binding produced by the last assignment). -/
abbrev PyDictBool := List (String × Bool)

/-- `d.get(k, dflt)`. -/
def dictGetB (d : PyDictBool) (k : String) (dflt : Bool) : Bool :=
  match d.find? (fun kv => kv.1 == k) with
  | some kv => kv.2
  | none => dflt

/-- `d[k] = v`: the new binding shadows (replaces) any previous one. -/
def dictSetB (d : PyDictBool) (k : String) (v : Bool) : PyDictBool :=
  (k, v) :: d.filter (fun kv => ¬ (kv.1 = k))

/-- `d.pop(k, None)`: removes the binding of `k`, if any. -/
def dictPopB (d : PyDictBool) (k : String) : PyDictBool :=
  d.filter (fun kv => ¬ (kv.1 = k))

theorem dictGetB_set_self (d : PyDictBool) (k : String) (v : Bool) (dflt : Bool) :
    dictGetB (dictSetB d k v) k dflt = v := by
  simp [dictGetB, dictSetB, List.find?]

theorem dictGetB_pop_self (d : PyDictBool) (k : String) (dflt : Bool) :
    dictGetB (dictPopB d k) k dflt = dflt := by
  have h : (dictPopB d k).find? (fun kv => kv.1 == k) = none := by
    rw [List.find?_eq_none]
    intro kv hkv
    rw [dictPopB, List.mem_filter] at hkv
    simpa using hkv.2
  simp [dictGetB, h]

/-- `get_issue_processing_key` from `src/patcher/server/webhooks.py`. -/
def get_issue_processing_key (repo : String) (issue_number : Int) : String :=
  repo ++ "#issue-" ++ toString issue_number

/-- `is_issue_processing`: `_processing_issues.get(key, False)`. -/
def is_issue_processing (d : PyDictBool) (repo : String) (issue_number : Int) : Bool :=
  dictGetB d (get_issue_processing_key repo issue_number) false

/-- `mark_issue_processing`: returns `False` if the key is already flagged,
else flags it and returns `True`; the updated dict is returned alongside. -/
def mark_issue_processing (d : PyDictBool) (repo : String) (issue_number : Int) :
    Bool × PyDictBool :=
  let key := get_issue_processing_key repo issue_number
  if dictGetB d key false then (false, d)
  else (true, dictSetB d key true)

/-- `clear_issue_processing`: `_processing_issues.pop(key, None)`. -/
def clear_issue_processing (d : PyDictBool) (repo : String) (issue_number : Int) :
    PyDictBool :=
  dictPopB d (get_issue_processing_key repo issue_number)

/-- C5: acquiring the dedup guard returns whether the flag was previously
unset and sets it; from an unset state, two successive acquisitions with no
intervening release yield exactly one `true` (the first); releasing clears the
flag unconditionally, after which an acquisition returns `true` again. -/
theorem mark_issue_processing_spec (d : PyDictBool) (repo : String) (n : Int) :
    (mark_issue_processing d repo n).1 = !(is_issue_processing d repo n) ∧
    (is_issue_processing d repo n = false →
      (mark_issue_processing d repo n).1 = true ∧
      is_issue_processing (mark_issue_processing d repo n).2 repo n = true ∧
      (mark_issue_processing (mark_issue_processing d repo n).2 repo n).1 = false) ∧
    is_issue_processing (clear_issue_processing d repo n) repo n = false ∧
    (mark_issue_processing (clear_issue_processing d repo n) repo n).1 = true := by
  refine ⟨?_, ?_, ?_, ?_⟩
  · by_cases h : is_issue_processing d repo n <;>
      simp [mark_issue_processing, is_issue_processing] at h ⊢ <;> simp [h]
  · intro h
    rw [is_issue_processing] at h
    refine ⟨by simp [mark_issue_processing, h], ?_, ?_⟩
    · simp [mark_issue_processing, h, is_issue_processing, dictGetB_set_self]
    · simp [mark_issue_processing, h, dictGetB_set_self]
  · rw [is_issue_processing, clear_issue_processing, dictGetB_pop_self]
  · have h : dictGetB (dictPopB d (get_issue_processing_key repo n))
        (get_issue_processing_key repo n) false = false := dictGetB_pop_self ..
    simp [mark_issue_processing, clear_issue_processing, h]

/-- C5, witness: concrete run of the guard from an empty state. -/
theorem mark_issue_processing_spec_witness :
    (mark_issue_processing [] "o/r" 5).1 = true ∧
    (mark_issue_processing (mark_issue_processing [] "o/r" 5).2 "o/r" 5).1 = false ∧
    (mark_issue_processing (clear_issue_processing [] "o/r" 5) "o/r" 5).1 = true := by
  have h := mark_issue_processing_spec [] "o/r" 5
  exact ⟨(h.2.1 (by decide)).1, (h.2.1 (by decide)).2.2, h.2.2.2⟩

/-! ## Agent state model (`src/patcher/state/models.py`)

Strings that the state codec must reason about character by character are
modelled as `List Char` (`Str`). -/

/-- Character-level text. -/
abbrev Str := List Char

/-- `IterationStatus` enum from `src/patcher/state/models.py`. -/
inductive IterationStatus where
  | pending
  | in_progress
  | awaiting_review
  | needs_changes
  | completed
  | failed
deriving DecidableEq, Repr

/-- The `.value` string of an `IterationStatus`. -/
def IterationStatus.value : IterationStatus → Str
  | .pending => "pending".toList
  | .in_progress => "in_progress".toList
  | .awaiting_review => "awaiting_review".toList
  | .needs_changes => "needs_changes".toList
  | .completed => "completed".toList
  | .failed => "failed".toList

/-- `IterationStatus(value)`: the enum member with that value, or a
`ValueError` (`none`). -/
def IterationStatus.ofValue (v : Str) : Option IterationStatus :=
  if v = "pending".toList then some .pending
  else if v = "in_progress".toList then some .in_progress
  else if v = "awaiting_review".toList then some .awaiting_review
  else if v = "needs_changes".toList then some .needs_changes
  else if v = "completed".toList then some .completed
  else if v = "failed".toList then some .failed
  else none

theorem IterationStatus.ofValue_value (st : IterationStatus) :
    IterationStatus.ofValue st.value = some st := by
  cases st <;> rfl

/-- `Iteration` dataclass from `src/patcher/state/models.py`. `timestamp` is a
`datetime`, modelled by its ISO serialization. -/
structure Iteration where
  number : Int
  status : IterationStatus
  changes : List Str
  review_feedback : Option Str
  ci_status : Option Str
  commit_sha : Option Str
  timestamp : Str
deriving DecidableEq, Repr

/-- `AgentState` dataclass from `src/patcher/state/models.py`. `created_at`
and `updated_at` are `datetime`s, modelled by their ISO serialization. -/
structure AgentState where
  issue_number : Int
  pr_number : Option Int
  branch_name : Str
  iterations : List Iteration
  requirements_hash : Str
  created_at : Str
  updated_at : Str
deriving DecidableEq, Repr

/-- The `AgentState(...)` constructor as the code uses it: `pr_number` unset,
`iterations` empty, timestamps from `datetime.utcnow()` (passed in). -/
def mkAgentState (issue_number : Int) (branch_name : Str) (requirements_hash : Str)
    (now : Str) : AgentState :=
  { issue_number := issue_number
    pr_number := none
    branch_name := branch_name
    iterations := []
    requirements_hash := requirements_hash
    created_at := now
    updated_at := now }

/-- `AgentState.add_iteration`: appends an iteration numbered
`len(iterations) + 1`, refreshes `updated_at` to `now`, and returns the new
iteration together with the updated state. -/
def add_iteration (s : AgentState) (now : Str)
    (status : IterationStatus := .pending) (changes : List Str := []) :
    AgentState × Iteration :=
  let iteration : Iteration :=
    { number := (s.iterations.length : Int) + 1
      status := status
      changes := changes
      review_feedback := none
      ci_status := none
      commit_sha := none
      timestamp := now }
  ({ s with iterations := s.iterations ++ [iteration], updated_at := now }, iteration)

/-- `AgentState.current_iteration`: `iterations[-1] if iterations else None`. -/
def current_iteration (s : AgentState) : Option Iteration :=
  s.iterations.getLast?

/-- `AgentState.iteration_count`. -/
def iteration_count (s : AgentState) : Nat :=
  s.iterations.length

/-- The numbering invariant of the spec: `steps[i].number == i + 1`. -/
def Numbering (s : AgentState) : Prop :=
  ∀ (i : Nat) (h : i < s.iterations.length), (s.iterations.get ⟨i, h⟩).number = (i : Int) + 1

/-- One append step: the arguments of one `add_iteration` call. -/
abbrev AppendArgs := Str × IterationStatus × List Str

/-- A sequence of `add_iteration` calls, applied in order. -/
def applyAppends (s : AgentState) (appends : List AppendArgs) : AgentState :=
  appends.foldl (fun st a => (add_iteration st a.1 a.2.1 a.2.2).1) s

theorem add_iteration_numbering (s : AgentState) (now : Str) (status : IterationStatus)
    (changes : List Str) (h : Numbering s) :
    Numbering (add_iteration s now status changes).1 := by
  intro i hi
  simp only [add_iteration, List.length_append, List.length_cons, List.length_nil] at hi
  by_cases hlt : i < s.iterations.length
  · have := h i hlt
    simp only [add_iteration, List.get_eq_getElem]
    rw [List.getElem_append_left hlt]
    simpa [List.get_eq_getElem] using this
  · have hieq : i = s.iterations.length := by omega
    subst hieq
    simp [add_iteration]

theorem applyAppends_numbering (s : AgentState) (appends : List AppendArgs)
    (h : Numbering s) : Numbering (applyAppends s appends) := by
  induction appends generalizing s with
  | nil => exact h
  | cons a rest ih =>
      exact ih _ (add_iteration_numbering s a.1 a.2.1 a.2.2 h)

/-- C9: starting from a freshly constructed record, after any sequence of
appends every step satisfies `steps[i].number == i + 1`, the current step is
always the last element of the list, and `updated_at` is refreshed on every
append (it equals the `now` of that append, in particular of the last one). -/
theorem agent_state_step_invariants (issue_number : Int) (branch_name : Str)
    (requirements_hash : Str) (t0 : Str) (appends : List AppendArgs) :
    Numbering (applyAppends (mkAgentState issue_number branch_name requirements_hash t0)
      appends) ∧
    (∀ (st : AgentState), current_iteration st = st.iterations.getLast?) ∧
    (∀ (st : AgentState) (now : Str) (status : IterationStatus) (changes : List Str),
      (add_iteration st now status changes).1.updated_at = now ∧
      current_iteration (add_iteration st now status changes).1
        = some (add_iteration st now status changes).2) ∧
    (∀ (pre : List AppendArgs) (a : AppendArgs), appends = pre ++ [a] →
      (applyAppends (mkAgentState issue_number branch_name requirements_hash t0)
        appends).updated_at = a.1) := by
  refine ⟨?_, fun st => rfl, fun st now status changes => ⟨rfl, ?_⟩, ?_⟩
  · apply applyAppends_numbering
    intro i hi
    simp [mkAgentState] at hi
  · simp [current_iteration, add_iteration]
  · rintro pre a rfl
    rw [applyAppends, List.foldl_append]
    rfl

/-- C9, witness: a fresh record with two appends. -/
theorem agent_state_step_invariants_witness :
    Numbering (applyAppends (mkAgentState 7 "b".toList "h".toList "t0".toList)
      [("t1".toList, .awaiting_review, []), ("t2".toList, .completed, [])]) ∧
    (applyAppends (mkAgentState 7 "b".toList "h".toList "t0".toList)
      [("t1".toList, .awaiting_review, []), ("t2".toList, .completed, [])]).updated_at
      = "t2".toList := by
  have h := agent_state_step_invariants 7 "b".toList "h".toList "t0".toList
    [("t1".toList, .awaiting_review, []), ("t2".toList, .completed, [])]
  exact ⟨h.1, h.2.2.2 [("t1".toList, .awaiting_review, [])] ("t2".toList, .completed, []) rfl⟩

/-! ## Branch naming (`CodeAgent._generate_branch_name`) and the
review-event router (`handle_pull_request_review_event`) -/

/-- `IssueData` from `src/patcher/github/models.py` (the fields the
orchestrator reads). -/
structure IssueData where
  number : Int
  title : Str
  body : Str
  labels : List String
deriving DecidableEq, Repr

/-- ASCII model of Python `str.lower()` on one character. -/
def pyLowerChar (c : Char) : Char :=
  if 'A' ≤ c ∧ c ≤ 'Z' then Char.ofNat (c.toNat + 32) else c

/-- The character class `[a-zA-Z0-9]` of `_generate_branch_name`. -/
def isAsciiAlnum (c : Char) : Bool :=
  ('a' ≤ c && c ≤ 'z') || ('A' ≤ c && c ≤ 'Z') || ('0' ≤ c && c ≤ '9')

mutual
/-- `re.sub(r"[^a-zA-Z0-9]+", "-", s)`: each maximal run of characters outside
`[a-zA-Z0-9]` becomes a single `-`. -/
def squashRuns : Str → Str
  | [] => []
  | c :: rest => if isAsciiAlnum c then c :: squashRuns rest else '-' :: squashRest rest
/-- Continuation of `squashRuns` inside a non-alphanumeric run (the `-` has
already been emitted). -/
def squashRest : Str → Str
  | [] => []
  | c :: rest => if isAsciiAlnum c then c :: squashRuns rest else squashRest rest
end

/-- Python `s.strip("-")`. -/
def stripDashes (s : Str) : Str :=
  ((s.dropWhile (· == '-')).reverse.dropWhile (· == '-')).reverse

/-- `CodeAgent._generate_branch_name`: slugify the lowered title, strip
dashes, truncate to 40 characters, and produce
`patcher/issue-{number}-{slug}`. -/
def generate_branch_name (issue : IssueData) : Str :=
  let slug := (stripDashes (squashRuns (issue.title.map pyLowerChar))).take 40
  "patcher/issue-".toList ++ (toString issue.number).toList ++ '-' :: slug

/-- `p` is a character-for-character prefix of `t` (Python `t.startswith(p)`). -/
def startsWithL : Str → Str → Bool
  | [], _ => true
  | _ :: _, [] => false
  | p :: ps, c :: cs => p == c && startsWithL ps cs

theorem startsWithL_self_append (p x : Str) : startsWithL p (p ++ x) = true := by
  induction p with
  | nil => rfl
  | cons c cs ih => simp [startsWithL, ih]

/-- A routing decision of a webhook handler: skip (with the reason string the
handler returns) or continue processing. -/
inductive RouteDecision where
  | skipped (reason : String)
  | proceed
deriving DecidableEq, Repr

/-- The gate of `handle_pull_request_review_event`: reviews are routed onward
only if the PR's head ref starts with `elpatcher/` and the review state is
`changes_requested`. -/
def review_event_route (head_ref : Str) (review_state : String) : RouteDecision :=
  if ¬ startsWithL "elpatcher/".toList head_ref then .skipped "not a patcher PR"
  else if review_state ≠ "changes_requested" then .skipped "not a changes_requested review"
  else .proceed

/-- C10: every branch name generated by the orchestrator's own start path
begins with `patcher/issue-`, which never satisfies the review router's
`elpatcher/` requirement, so every review-state-changed event for such a PR is
skipped as "not a patcher PR". -/
theorem generated_branch_never_routed (issue : IssueData) (review_state : String) :
    startsWithL "patcher/issue-".toList (generate_branch_name issue) = true ∧
    startsWithL "elpatcher/".toList (generate_branch_name issue) = false ∧
    review_event_route (generate_branch_name issue) review_state
      = .skipped "not a patcher PR" := by
  refine ⟨startsWithL_self_append _ _, ?_, ?_⟩
  · rfl
  · have h : startsWithL "elpatcher/".toList (generate_branch_name issue) = false := rfl
    have h' : ¬ (startsWithL "elpatcher/".toList (generate_branch_name issue) = true) := by
      rw [h]; simp
    rw [review_event_route, if_pos h']

/-! ## Code agent (`src/patcher/agents/code_agent.py`)

`CodeAgent.run` and `CodeAgent.iterate` are sequential compositions of
fallible external calls (GitHub API, the LangGraph exploration run, the
structured-output LLM chain). Each such call is an `Except PyErr` input of the
model; the `try/except` bodies become matches. Prompt texts, which are passed
to the collaborators but never observed by the orchestrator's result, are not
modelled. -/

/-- `FileChange` schema from `src/patcher/llm/schemas.py`. -/
structure SchemaFileChange where
  path : Str
  content : Str
  action : String
deriving DecidableEq, Repr

/-- `CodeGeneration` schema from `src/patcher/llm/schemas.py`. -/
structure CodeGeneration where
  files : List SchemaFileChange
  explanation : String
deriving DecidableEq, Repr

/-- `FileChange` from `src/patcher/github/models.py`. -/
structure FileChangeGH where
  path : Str
  content : Str
  status : String
deriving DecidableEq, Repr

/-- `CodeAgentResult` from `src/patcher/agents/code_agent.py`. -/
structure CodeAgentResult where
  success : Bool
  pr_url : Option String := none
  pr_number : Option Int := none
  changes : Option (List FileChangeGH) := none
  iteration_count : Nat := 0
  error : Option String := none
deriving DecidableEq, Repr

/-- A created PR as `GitHubClient.create_pull_request` returns it. -/
structure PRCreated where
  number : Int
  url : String
deriving DecidableEq, Repr

/-- `CodeAgent._generate_code`: the structured-output chain call with its
internal `try/except` — a chain exception degrades to an empty-files
`CodeGeneration` carrying the parsing-error text. -/
def generate_code_fallback (chainR : Except PyErr CodeGeneration) : CodeGeneration :=
  match chainR with
  | .ok r => r
  | .error e => { files := [], explanation := "Code generation failed due to parsing error: " ++ e }

/-- `CodeAgent._generate_fixes`: same fallback shape for the review-feedback
fix chain. -/
def generate_fixes_fallback (chainR : Except PyErr CodeGeneration) : CodeGeneration :=
  match chainR with
  | .ok r => r
  | .error e => { files := [], explanation := "Fix generation failed due to parsing error: " ++ e }

/-- `CodeAgent._generate_ci_fixes`: returns an empty generation when no check
failed, otherwise the chain call with its exception fallback. -/
def generate_ci_fixes_fallback (ci : CIResult) (chainR : Except PyErr CodeGeneration) :
    CodeGeneration :=
  let failures := ci.checks.filter (fun c => c.status == .failure)
  if failures.isEmpty then { files := [], explanation := "No CI failures to fix" }
  else
    match chainR with
    | .ok r => r
    | .error e =>
        { files := [], explanation := "CI fix generation failed due to parsing error: " ++ e }

/-- `CodeAgent._get_ci_failures`: fetches CI status (exceptions degrade to
`None`) and returns the result only when some check has status `FAILURE`. -/
def get_ci_failures (ciR : Except PyErr CIResult) : Option CIResult :=
  match ciR with
  | .error _ => none
  | .ok r => if r.checks.any (fun c => c.status == .failure) then some r else none

/-- Update the latest iteration in place (`state.current_iteration.<field> = v`
mutations), given as a function on the last list element. -/
def updateLastIteration (s : AgentState) (f : Iteration → Iteration) : AgentState :=
  match s.iterations.reverse with
  | [] => s
  | last :: rest => { s with iterations := (f last :: rest).reverse }

/-- The fallible external calls of one `CodeAgent.run` invocation, in source
order, plus the values of its pure inputs. -/
structure RunParams where
  issueR : Except PyErr IssueData
  cloneR : Except PyErr Unit
  graphR : Except PyErr Unit
  chainR : Except PyErr CodeGeneration
  branchR : Except PyErr Unit
  commitR : Except PyErr Str
  prR : Except PyErr PRCreated
  saveR : Except PyErr Unit
  dryRun : Bool
  requirementsHash : Str
  now : Str

/-- The `FileChange` list `run` builds from the generated files
(`"added"` for created files, `"modified"` otherwise). -/
def runChanges (p : RunParams) : List FileChangeGH :=
  (generate_code_fallback p.chainR).files.map (fun f =>
    { path := f.path
      content := f.content
      status := if f.action = "create" then "added" else "modified" })

/-- The `AgentState` that `run` builds before creating the PR: a fresh record,
one `awaiting_review` iteration listing the changed paths, with the commit sha
written into the current iteration. -/
def runNewState (p : RunParams) (issue : IssueData) (commit_sha : Str) : AgentState :=
  updateLastIteration
    (add_iteration (mkAgentState issue.number (generate_branch_name issue)
        p.requirementsHash p.now)
      p.now .awaiting_review ((runChanges p).map (·.path))).1
    (fun it => { it with commit_sha := some commit_sha })

/-- The body of `CodeAgent.run` (everything inside its outer `try`). -/
def runExcept (p : RunParams) : Except PyErr CodeAgentResult :=
  match p.issueR with
  | .error e => .error e
  | .ok _issue =>
  match p.cloneR with
  | .error e => .error e
  | .ok _ =>
  match p.graphR with
  | .error e => .error e
  | .ok _ =>
  if (generate_code_fallback p.chainR).files.isEmpty then
    .ok { success := false,
          error := some ("Code generation failed: "
            ++ (generate_code_fallback p.chainR).explanation) }
  else if p.dryRun then
    .ok { success := true, changes := some (runChanges p), iteration_count := 1 }
  else
  match p.branchR with
  | .error e => .error e
  | .ok _ =>
  match p.commitR with
  | .error e => .error e
  | .ok _commit_sha =>
  match p.prR with
  | .error e => .error e
  | .ok pr =>
  match p.saveR with
  | .error e => .error e
  | .ok _ =>
    .ok { success := true, pr_url := some pr.url, pr_number := some pr.number,
          changes := some (runChanges p), iteration_count := 1 }

/-- The state `run` persists to the PR: `runNewState` with the PR number set. -/
def runSavedState (p : RunParams) (issue : IssueData) (commit_sha : Str) (pr : PRCreated) :
    AgentState :=
  { runNewState p issue commit_sha with pr_number := some pr.number }

/-- `CodeAgent.run`: the body with its outer `except Exception` boundary,
which converts any exception into a failed result carrying `str(e)`. -/
def CodeAgent.run (p : RunParams) : CodeAgentResult :=
  match runExcept p with
  | .ok r => r
  | .error e => { success := false, error := some e }

/-- Which advancement context `CodeAgent.iterate` generates fixes in. -/
inductive AdvanceContext where
  | ciFix
  | reviewFix
deriving DecidableEq, Repr

/-- The fallible external calls of one `CodeAgent.iterate` invocation, in
source order. The exploration-graph and fix-chain collaborator calls exist
once per context (`graphCiR`/`ciChainR` for the CI-failure path,
`graphFbR`/`fbChainR` for the review-feedback path); `feedbackR` is the result
of `_get_review_feedback`, which catches all its own exceptions. -/
structure IterParams where
  pullR : Except PyErr Unit
  issueR : Except PyErr IssueData
  ciR : Except PyErr CIResult
  graphCiR : Except PyErr Unit
  ciChainR : Except PyErr CodeGeneration
  feedbackR : Option Str
  graphFbR : Except PyErr Unit
  fbChainR : Except PyErr CodeGeneration
  commitR : Except PyErr Str
  saveR : Except PyErr Unit
  prInfoR : Except PyErr PRCreated
  now : Str

/-- The `FileChange` list `iterate` builds from a fix generation (always
`"modified"`). -/
def iterateChanges (code_gen : CodeGeneration) : List FileChangeGH :=
  code_gen.files.map (fun f => { path := f.path, content := f.content, status := "modified" })

/-- The state `iterate` persists: the incoming state with one appended
`awaiting_review` iteration carrying commit sha, the stored feedback text and
the `ci_status` label of the chosen path. -/
def iterateNewState (q : IterParams) (state : AgentState) (code_gen : CodeGeneration)
    (feedback_field : Str) (ci_status_field : Str) (commit_sha : Str) : AgentState :=
  updateLastIteration
    (add_iteration state q.now .awaiting_review ((iterateChanges code_gen).map (·.path))).1
    (fun it =>
      { it with commit_sha := some commit_sha
                review_feedback := some feedback_field
                ci_status := some ci_status_field })

/-- The common tail of both advancement paths of `CodeAgent.iterate`: bail out
on an empty generation, otherwise commit, append the new iteration, store the
feedback fields, persist and report success. -/
def iterateTail (q : IterParams) (state : AgentState) (code_gen : CodeGeneration)
    (feedback_field : Str) (ci_status_field : Str) : Except PyErr CodeAgentResult :=
  if code_gen.files.isEmpty then
    .ok { success := false, error := some ("Fix generation failed: " ++ code_gen.explanation),
          iteration_count := iteration_count state }
  else
  match q.commitR with
  | .error e => .error e
  | .ok commit_sha =>
  match q.saveR with
  | .error e => .error e
  | .ok _ =>
  match q.prInfoR with
  | .error e => .error e
  | .ok pr =>
    .ok { success := true, pr_url := some pr.url, changes := some (iterateChanges code_gen),
          iteration_count := iteration_count
            (iterateNewState q state code_gen feedback_field ci_status_field commit_sha) }

/-- The text stored as review feedback on the CI path:
`"[CI Fixes]\n"` plus one `name: output-or-Failed` line per failing check. -/
def ciFailuresText (ci : CIResult) : Str :=
  ("[CI Fixes]\n" ++ String.intercalate "\n"
    ((ci.checks.filter (fun c => c.status == .failure)).map (fun c =>
      c.name ++ ": " ++ (match c.output with
        | some s => if s = "" then "Failed" else s
        | none => "Failed")))).toList

/-- The body of `CodeAgent.iterate` (everything inside its outer `try`):
CI failures are checked first and win over review feedback; with neither, the
iteration is a successful no-op. -/
def iterateExcept (q : IterParams) (state : AgentState) : Except PyErr CodeAgentResult :=
  match q.pullR with
  | .error e => .error e
  | .ok _ =>
  match q.issueR with
  | .error e => .error e
  | .ok _issue =>
  match get_ci_failures q.ciR with
  | some ci_result =>
      match q.graphCiR with
      | .error e => .error e
      | .ok _ =>
        iterateTail q state (generate_ci_fixes_fallback ci_result q.ciChainR)
          (ciFailuresText ci_result) "failed".toList
  | none =>
      match q.feedbackR with
      | none =>
          match q.prInfoR with
          | .error e => .error e
          | .ok pr =>
              .ok { success := true, pr_url := some pr.url,
                    iteration_count := iteration_count state }
      | some feedback =>
          match q.graphFbR with
          | .error e => .error e
          | .ok _ =>
            iterateTail q state (generate_fixes_fallback q.fbChainR) feedback "passed".toList

/-- `CodeAgent.iterate`: the body with its outer `except Exception` boundary. -/
def CodeAgent.iterate (q : IterParams) (state : AgentState) : CodeAgentResult :=
  match iterateExcept q state with
  | .ok r => r
  | .error e => { success := false, error := some e, iteration_count := iteration_count state }

/-- The advancement context `CodeAgent.iterate` selects, as a function of its
inputs: with the preliminary steps succeeding, the CI-failure path is taken
exactly when `_get_ci_failures` reports a failing check, and the
review-feedback path only otherwise. -/
def advanceSelectedContext (q : IterParams) : Option AdvanceContext :=
  match q.pullR, q.issueR with
  | .ok _, .ok _ =>
      if (get_ci_failures q.ciR).isSome then some .ciFix
      else if q.feedbackR.isSome then some .reviewFix
      else none
  | _, _ => none

/-- `pat` occurs as a contiguous substring of the text. -/
def containsSubL (pat : Str) : Str → Bool
  | [] => pat.isEmpty
  | c :: rest => startsWithL pat (c :: rest) || containsSubL pat rest

/-- Substring occurrence on `String`s. -/
def containsSubS (pat s : String) : Bool :=
  containsSubL pat.toList s.toList

theorem containsSubL_of_middle (p a b : Str) : containsSubL p (a ++ p ++ b) = true := by
  induction a with
  | nil =>
      simp only [List.nil_append]
      cases hpb : p ++ b with
      | nil =>
          have hp : p = [] := (List.append_eq_nil.mp hpb).1
          simp [containsSubL, hp]
      | cons c cs =>
          simp only [containsSubL]
          rw [← hpb, startsWithL_self_append]
          simp
  | cons c cs ih =>
      have hsh : (c :: cs) ++ p ++ b = c :: (cs ++ p ++ b) := by simp
      rw [hsh]
      simp only [containsSubL]
      rw [ih]
      simp

theorem containsSubS_append_right (a p : String) : containsSubS p (a ++ p) = true := by
  rw [containsSubS, show (a ++ p).toList = a.toList ++ p.toList ++ [] by
    simp [String.toList, String.data_append]]
  exact containsSubL_of_middle ..

theorem runExcept_structured (p : RunParams) (r : CodeAgentResult)
    (h : runExcept p = .ok r) : r.success = true ∨ r.error.isSome := by
  unfold runExcept at h
  repeat' split at h
  all_goals first
    | (exact Except.noConfusion h)
    | (simp only [Except.ok.injEq] at h; subst h; simp)

theorem iterateExcept_structured (q : IterParams) (st : AgentState) (r : CodeAgentResult)
    (h : iterateExcept q st = .ok r) : r.success = true ∨ r.error.isSome := by
  unfold iterateExcept iterateTail at h
  repeat' split at h
  all_goals first
    | (exact Except.noConfusion h)
    | (simp only [Except.ok.injEq] at h; subst h; simp)

/-- C3: the orchestrator boundary is total — `run` and `iterate` always return
a structured result (success, or failure with error text), never an unhandled
fault; an exception from a pre-generation step surfaces as a failed result
carrying exactly `str(e)`; an exception of the generation chain itself is
converted (via the `_generate_code` fallback and the empty-files check) into a
failed result whose error text contains the exception text. -/
theorem orchestrator_error_boundary (p : RunParams) (q : IterParams) (st : AgentState) :
    ((CodeAgent.run p).success = true ∨ (CodeAgent.run p).error.isSome) ∧
    ((CodeAgent.iterate q st).success = true ∨ (CodeAgent.iterate q st).error.isSome) ∧
    (∀ e, p.issueR = .error e →
      (CodeAgent.run p).success = false ∧ (CodeAgent.run p).error = some e) ∧
    (∀ e issue, p.issueR = .ok issue → p.cloneR = .ok () → p.graphR = .ok () →
      p.chainR = .error e →
      (CodeAgent.run p).success = false ∧
      ∃ msg, (CodeAgent.run p).error = some msg ∧ containsSubS e msg = true) ∧
    (∀ e, q.pullR = .error e →
      (CodeAgent.iterate q st).success = false ∧ (CodeAgent.iterate q st).error = some e) := by
  refine ⟨?_, ?_, ?_, ?_, ?_⟩
  · rcases hr : runExcept p with e | r
    · simp [CodeAgent.run, hr]
    · have := runExcept_structured p r hr
      simpa [CodeAgent.run, hr] using this
  · rcases hr : iterateExcept q st with e | r
    · simp [CodeAgent.iterate, hr]
    · have := iterateExcept_structured q st r hr
      simpa [CodeAgent.iterate, hr] using this
  · intro e he
    simp [CodeAgent.run, runExcept, he]
  · intro e issue h1 h2 h3 h4
    have hrun : CodeAgent.run p
        = { success := false,
            error := some ("Code generation failed: "
              ++ ("Code generation failed due to parsing error: " ++ e)) } := by
      simp [CodeAgent.run, runExcept, h1, h2, h3, h4, generate_code_fallback]
    refine ⟨by rw [hrun], ⟨_, by rw [hrun], ?_⟩⟩
    rw [← String.append_assoc]
    exact containsSubS_append_right _ e
  · intro e he
    simp [CodeAgent.iterate, iterateExcept, he]

/-- Concrete `run` parameters whose generation chain raises (C3 witness data). -/
def runParamsW : RunParams :=
  { issueR := .ok { number := 1, title := "t".toList, body := "b".toList, labels := [] }
    cloneR := .ok (), graphR := .ok (), chainR := .error "boom"
    branchR := .ok (), commitR := .ok "sha".toList
    prR := .ok { number := 2, url := "u" }, saveR := .ok ()
    dryRun := false, requirementsHash := "h".toList, now := "t0".toList }

/-- Concrete `iterate` parameters whose first external call raises (C3 witness
data). -/
def iterParamsW : IterParams :=
  { pullR := .error "down"
    issueR := .ok { number := 1, title := "t".toList, body := "b".toList, labels := [] }
    ciR := .ok { status := .success, checks := [] }
    graphCiR := .ok (), ciChainR := .ok { files := [], explanation := "" }
    feedbackR := none, graphFbR := .ok (), fbChainR := .ok { files := [], explanation := "" }
    commitR := .ok "sha".toList, saveR := .ok ()
    prInfoR := .ok { number := 2, url := "u" }, now := "t0".toList }

/-- C3, witness: boundary behavior at concrete parameters whose generation
chain raises. -/
theorem orchestrator_error_boundary_witness :
    (CodeAgent.run runParamsW).success = false ∧
    (CodeAgent.iterate iterParamsW
      (mkAgentState 1 "b".toList "h".toList "t0".toList)).error = some "down" := by
  refine ⟨?_, ?_⟩
  · exact ((orchestrator_error_boundary runParamsW iterParamsW
      (mkAgentState 1 "b".toList "h".toList "t0".toList)).2.2.2.1 "boom" _ rfl rfl rfl rfl).1
  · exact ((orchestrator_error_boundary runParamsW iterParamsW
      (mkAgentState 1 "b".toList "h".toList "t0".toList)).2.2.2.2 "down" rfl).2

/-- C6: when a failing CI check and review feedback are both outstanding at
advance time, `CodeAgent.iterate` selects the CI-failure context and not the
review-feedback context; the two are mutually exclusive per advancement, and
on the CI path the outcome is independent of the review-feedback collaborator
inputs (they are never invoked). -/
theorem ci_priority_over_feedback (q : IterParams) (st : AgentState) (ci : CIResult)
    (f : Str) (h1 : q.pullR = .ok ()) (h2 : ∃ issue, q.issueR = .ok issue)
    (h3 : q.ciR = .ok ci) (h4 : ci.checks.any (fun c => c.status == .failure) = true)
    (h5 : q.feedbackR = some f) :
    advanceSelectedContext q = some .ciFix ∧
    advanceSelectedContext q ≠ some .reviewFix ∧
    (∀ x y, CodeAgent.iterate { q with fbChainR := x, graphFbR := y } st
      = CodeAgent.iterate q st) := by
  obtain ⟨issue, h2⟩ := h2
  have hci : get_ci_failures q.ciR = some ci := by
    simp [get_ci_failures, h3, h4]
  refine ⟨?_, ?_, ?_⟩
  · simp [advanceSelectedContext, h1, h2, hci]
  · simp [advanceSelectedContext, h1, h2, hci]
  · intro x y
    simp [CodeAgent.iterate, iterateExcept, h1, h2, hci, iterateTail, iterateNewState,
      iterateChanges, add_iteration, updateLastIteration]

/-- A CI result with one failing check (C6 witness data). -/
def ciResultW : CIResult :=
  { status := .failure
    checks := [{ name := "tests", status := .failure, conclusion := some "failure",
                 url := none, output := none }] }

/-- Concrete `iterate` parameters with both a failing check and review
feedback outstanding (C6 witness data). -/
def iterParamsC6W : IterParams :=
  { pullR := .ok ()
    issueR := .ok { number := 1, title := "t".toList, body := "b".toList, labels := [] }
    ciR := .ok ciResultW
    graphCiR := .ok (), ciChainR := .ok { files := [], explanation := "" }
    feedbackR := some "please fix".toList, graphFbR := .ok ()
    fbChainR := .ok { files := [], explanation := "" }
    commitR := .ok "sha".toList, saveR := .ok ()
    prInfoR := .ok { number := 2, url := "u" }, now := "t0".toList }

/-- C6, witness: concrete advancement with both a failing check and feedback. -/
theorem ci_priority_over_feedback_witness :
    advanceSelectedContext iterParamsC6W = some .ciFix := by
  exact (ci_priority_over_feedback iterParamsC6W
    (mkAgentState 1 "b".toList "h".toList "t0".toList) ciResultW
    "please fix".toList rfl ⟨_, rfl⟩ rfl (by decide) rfl).1

/-! ## Review agent fallback (`ReviewAgent._analyze_diff`) -/

/-- `ReviewIssue` schema from `src/patcher/llm/schemas.py`. -/
structure ReviewIssue where
  severity : String
  file_path : String
  line : Option Int
  description : String
  suggestion : String
deriving DecidableEq, Repr

/-- `CodeReview` schema from `src/patcher/llm/schemas.py`. -/
structure CodeReview where
  assessment : String
  issues : List ReviewIssue
  requirements_met : Bool
  requirements_notes : String
  approved : Bool
deriving DecidableEq, Repr

/-- `ReviewAgent._analyze_diff`: the structured-output review chain with its
`try/except` — a chain exception falls back to a review that is APPROVED
(`approved=True`, "Default to approve if parsing fails") carrying the error
text in `requirements_notes`. -/
def analyze_diff_fallback (chainR : Except PyErr CodeReview) : CodeReview :=
  match chainR with
  | .ok r => r
  | .error e =>
      { assessment := "Unable to parse structured review output"
        issues := []
        requirements_met := true
        requirements_notes := e
        approved := true }

/-- C7, counterexample: a critique-collaborator failure does NOT degrade to a
not-approved result — the fallback of `ReviewAgent._analyze_diff` sets
`approved=True`. -/
theorem critique_failure_approves :
    (analyze_diff_fallback (.error "boom")).approved = true ∧
    ¬ (analyze_diff_fallback (.error "boom")).approved = false := by
  exact ⟨rfl, by decide⟩

/-- C7, amended: a generation-collaborator failure degrades to an empty-files
result whose explanation carries the error text (for the initial generation,
the review-fix generation, and the CI-fix generation alike), and a
critique-collaborator failure degrades — without propagating — to an
*approved* fallback review (`approved=True`, `requirements_met=True`) carrying
the error text in its notes, not to a not-approved result. -/
theorem collaborator_failure_degrades (e : PyErr) (ci : CIResult) :
    (generate_code_fallback (.error e)).files = [] ∧
    containsSubS e (generate_code_fallback (.error e)).explanation = true ∧
    (generate_fixes_fallback (.error e)).files = [] ∧
    containsSubS e (generate_fixes_fallback (.error e)).explanation = true ∧
    (generate_ci_fixes_fallback ci (.error e)).files = [] ∧
    (analyze_diff_fallback (.error e)).approved = true ∧
    (analyze_diff_fallback (.error e)).requirements_met = true ∧
    (analyze_diff_fallback (.error e)).requirements_notes = e := by
  refine ⟨rfl, ?_, rfl, ?_, ?_, rfl, rfl, rfl⟩
  · exact containsSubS_append_right _ e
  · exact containsSubS_append_right _ e
  · rw [generate_ci_fixes_fallback]
    split <;> rfl

/-! ## Issue-comment webhook handler (`handle_issue_comment_event`) -/

/-- Python dict from key strings to ints, for `_pr_iteration_counts`. -/
abbrev PyDictNat := List (String × Nat)

/-- `d.get(k, 0)`. -/
def dictGetN (d : PyDictNat) (k : String) : Nat :=
  match d.find? (fun kv => kv.1 == k) with
  | some kv => kv.2
  | none => 0

/-- `d[k] = v`. -/
def dictSetN (d : PyDictNat) (k : String) (v : Nat) : PyDictNat :=
  (k, v) :: d.filter (fun kv => ¬ (kv.1 = k))

/-- `get_pr_iteration_key`. -/
def get_pr_iteration_key (repo : String) (pr_number : Int) : String :=
  repo ++ "#" ++ toString pr_number

/-- `get_pr_iteration_count`. -/
def get_pr_iteration_count (d : PyDictNat) (repo : String) (pr_number : Int) : Nat :=
  dictGetN d (get_pr_iteration_key repo pr_number)

/-- `increment_pr_iteration`: bump and return the new count. -/
def increment_pr_iteration (d : PyDictNat) (repo : String) (pr_number : Int) :
    Nat × PyDictNat :=
  let key := get_pr_iteration_key repo pr_number
  (dictGetN d key + 1, dictSetN d key (dictGetN d key + 1))

/-- `ELPATCHER_MENTION_PATTERN.search(body)`: the pattern
`(?:@elpatcher|/elpatcher)\s*(?:fix|...)?` with `re.IGNORECASE` matches
somewhere iff the lowered text contains `@elpatcher` or `/elpatcher`
(the trigger-word tail is optional, so it never blocks a match). -/
def mention_match (body : Str) : Bool :=
  containsSubL "@elpatcher".toList (body.map pyLowerChar) ||
  containsSubL "/elpatcher".toList (body.map pyLowerChar)

/-- The fixed-format iteration-limit notice of `handle_issue_comment_event`,
with the configured maximum interpolated (it appears in the body text). -/
def max_iterations_comment (max_iterations : Nat) : Str :=
  ("## ⚠️ Достигнут лимит итераций\n\nElPatcher AI Agent достиг максимального количества итераций (").toList
  ++ (toString max_iterations).toList
  ++ (").\n\n**Что это значит:**\n- Автоматические исправления больше не будут применяться к этому PR\n- Необходимо ручное вмешательство для продолжения\n\n**Возможные действия:**\n1. Просмотрите комментарии review и внесите исправления вручную\n2. Закройте PR и создайте новый issue с более детальным описанием\n3. Обратитесь к maintainer\x27у проекта\n\n*Лимит итераций можно изменить в настройках сервера (MAX_ITERATIONS)*\n").toList

/-- The handler's returned dictionary, restricted to the keys it uses. -/
structure WebhookResponse where
  status : String
  reason : Option String := none
  iteration_count : Option Nat := none
  max_iterations : Option Nat := none
  error : Option String := none
deriving DecidableEq, Repr

/-- The observable outcome of one `handle_issue_comment_event` call: the
response, the comments the handler called `post_comment` with, whether
`CodeAgent.iterate` was invoked, and the updated iteration-count store. -/
structure CommentHandlerOutcome where
  response : WebhookResponse
  posted : List (Int × Str)
  agentInvoked : Bool
  counts : PyDictNat
deriving DecidableEq, Repr

/-- The event fields `handle_issue_comment_event` reads from its payload. -/
structure CommentEvent where
  action : String
  comment_body : Str
  issue_is_pr : Bool
  pr_number : Int
  labels : List String
  repo : String
deriving DecidableEq, Repr

/-- `handle_issue_comment_event` from `src/patcher/server/webhooks.py`:
guards (action, PR-ness, labels, mention), then the iteration-budget check —
when `current >= max_iterations` the handler posts the limit notice
(best-effort: only if the GitHub client could be built) and returns a
`max_iterations_reached` skip without touching the agent — and otherwise the
load-state/increment/iterate path. `tokenR` models GitHub App token
acquisition plus client construction, `stateR` the `load_from_pr` call (its
GitHub errors included), and `iterateResult` the agent call (which, by C3,
never throws). -/
def handle_issue_comment_event (ev : CommentEvent) (counts : PyDictNat)
    (max_iterations : Nat) (tokenR : Except PyErr Unit)
    (stateR : Except PyErr (Option AgentState)) (iterateResult : CodeAgentResult) :
    CommentHandlerOutcome :=
  if ev.action ≠ "created" then
    { response := { status := "skipped", reason := some ("unsupported action: " ++ ev.action) }
      posted := [], agentInvoked := false, counts := counts }
  else if ¬ ev.issue_is_pr then
    { response := { status := "skipped", reason := some "not a pull request" }
      posted := [], agentInvoked := false, counts := counts }
  else if ¬ (ev.labels.contains "elpatcher" || ev.labels.contains "ai-review") then
    { response := { status := "skipped", reason := some "no elpatcher/ai-review label" }
      posted := [], agentInvoked := false, counts := counts }
  else if ¬ mention_match ev.comment_body then
    { response := { status := "skipped", reason := some "no elpatcher mention" }
      posted := [], agentInvoked := false, counts := counts }
  else if get_pr_iteration_count counts ev.repo ev.pr_number ≥ max_iterations then
    { response := { status := "skipped", reason := some "max_iterations_reached"
                    iteration_count := some (get_pr_iteration_count counts ev.repo ev.pr_number)
                    max_iterations := some max_iterations }
      posted := match tokenR with
        | .ok _ => [(ev.pr_number, max_iterations_comment max_iterations)]
        | .error _ => []
      agentInvoked := false
      counts := counts }
  else
    match tokenR with
    | .error e =>
        { response := { status := "error", error := some e }
          posted := [], agentInvoked := false, counts := counts }
    | .ok _ =>
    match stateR with
    | .error e =>
        { response := { status := "error", error := some e }
          posted := [], agentInvoked := false, counts := counts }
    | .ok none =>
        { response := { status := "skipped", reason := some "no patcher state found" }
          posted := [], agentInvoked := false, counts := counts }
    | .ok (some _state) =>
        { response := { status := if iterateResult.success then "success" else "error"
                        iteration_count :=
                          some (increment_pr_iteration counts ev.repo ev.pr_number).1
                        error := iterateResult.error }
          posted := []
          agentInvoked := true
          counts := (increment_pr_iteration counts ev.repo ev.pr_number).2 }

theorem natChars_toString_contains (pre post : Str) (n : Nat) :
    containsSubL (toString n).toList (pre ++ (toString n).toList ++ post) = true :=
  containsSubL_of_middle ..

/-- C4: a mention-triggered advancement whose in-memory iteration count has
reached the configured maximum does not invoke the agent, posts (best-effort)
the fixed limit notice — whose text names the configured maximum — and returns
the terminal `max_iterations_reached` skip carrying the count and the maximum. -/
theorem budget_exhausted_short_circuits (ev : CommentEvent) (counts : PyDictNat)
    (max_iterations : Nat) (stateR : Except PyErr (Option AgentState))
    (iterateResult : CodeAgentResult)
    (h1 : ev.action = "created") (h2 : ev.issue_is_pr = true)
    (h3 : ("elpatcher" ∈ ev.labels ∨ "ai-review" ∈ ev.labels))
    (h4 : mention_match ev.comment_body = true)
    (h5 : get_pr_iteration_count counts ev.repo ev.pr_number ≥ max_iterations) :
    ∀ tokenR,
      (handle_issue_comment_event ev counts max_iterations tokenR stateR
        iterateResult).agentInvoked = false ∧
      (handle_issue_comment_event ev counts max_iterations tokenR stateR
        iterateResult).response
        = { status := "skipped", reason := some "max_iterations_reached"
            iteration_count := some (get_pr_iteration_count counts ev.repo ev.pr_number)
            max_iterations := some max_iterations } ∧
      (handle_issue_comment_event ev counts max_iterations (.ok ()) stateR
        iterateResult).posted
        = [(ev.pr_number, max_iterations_comment max_iterations)] ∧
      containsSubL (toString max_iterations).toList
        (max_iterations_comment max_iterations) = true := by
  intro tokenR
  have hcond : ¬ ("elpatcher" ∉ ev.labels ∧ "ai-review" ∉ ev.labels) := by
    rcases h3 with h | h <;> simp [h]
  refine ⟨?_, ?_, ?_, ?_⟩
  · simp [handle_issue_comment_event, h1, h2, hcond, h4, h5]
  · simp [handle_issue_comment_event, h1, h2, hcond, h4, h5]
  · simp [handle_issue_comment_event, h1, h2, hcond, h4, h5]
  · exact natChars_toString_contains _ _ max_iterations

/-- C4, witness: a concrete exhausted-budget mention event. -/
theorem budget_exhausted_short_circuits_witness :
    (handle_issue_comment_event
      { action := "created", comment_body := "@elpatcher fix".toList, issue_is_pr := true,
        pr_number := 3, labels := ["elpatcher"], repo := "o/r" }
      [("o/r#3", 2)] 2 (.ok ()) (.ok none)
      { success := true }).agentInvoked = false ∧
    (handle_issue_comment_event
      { action := "created", comment_body := "@elpatcher fix".toList, issue_is_pr := true,
        pr_number := 3, labels := ["elpatcher"], repo := "o/r" }
      [("o/r#3", 2)] 2 (.ok ()) (.ok none)
      { success := true }).posted
      = [(3, max_iterations_comment 2)] := by
  have h := budget_exhausted_short_circuits
    { action := "created", comment_body := "@elpatcher fix".toList, issue_is_pr := true,
      pr_number := 3, labels := ["elpatcher"], repo := "o/r" }
    [("o/r#3", 2)] 2 (.ok none) { success := true }
    rfl rfl (by simp) (by decide) (by decide) (.ok ())
  exact ⟨h.1, h.2.2.1⟩

/-! ## State codec (`src/patcher/state/manager.py`)

`save_to_pr` serializes the state with `json.dumps(..., indent=2,
ensure_ascii=False)` between two marker lines and splices the block into the
PR body with `re`; `load_from_pr` extracts the block with `re` and parses it
with `json.loads`. The JSON value grammar actually produced by
`AgentState.to_dict` has null, integers, strings, arrays and objects (no
booleans, no floats), so the embedding of the Python `json` library covers
exactly that grammar; `json_loads` rejects number forms with a fraction or
exponent, which `to_dict` never emits. -/

/-- A JSON value of the grammar `AgentState.to_dict` produces. -/
inductive Jval where
  | jnull
  | jint (n : Int)
  | jstr (s : Str)
  | jarr (items : List Jval)
  | jobj (members : List (Str × Jval))

/-- Decimal digit character (`0`–`9`). -/
def digitChar (d : Nat) : Char := Char.ofNat (48 + d)

/-- Hex digit character, lowercase, as Python's `\uXXXX` escapes print it. -/
def hexDigitChar (d : Nat) : Char :=
  if d < 10 then Char.ofNat (48 + d) else Char.ofNat (87 + d)

/-- Decimal digits, most significant first; the fuel (any bound above the
value) makes the recursion structural so that the digits compute by
reduction. -/
def natCharsAux : Nat → Nat → Str
  | 0, _ => []
  | fuel + 1, n =>
      if n < 10 then [digitChar n]
      else natCharsAux fuel (n / 10) ++ [digitChar (n % 10)]

/-- Decimal digits of `n`, most significant first (Python `repr` of a
nonnegative int). -/
def natChars (n : Nat) : Str := natCharsAux (n + 1) n

theorem natCharsAux_irrel : ∀ (f1 f2 n : Nat), n < f1 → n < f2 →
    natCharsAux f1 n = natCharsAux f2 n := by
  intro f1
  induction f1 with
  | zero => intro f2 n h1 _; exact absurd h1 (Nat.not_lt_zero _)
  | succ f ih =>
      intro f2 n h1 h2
      cases f2 with
      | zero => exact absurd h2 (Nat.not_lt_zero _)
      | succ g =>
          simp only [natCharsAux]
          by_cases hn : n < 10
          · simp [hn]
          · simp only [hn, if_false]
            have hd : n / 10 < n := Nat.div_lt_self (by omega) (by omega)
            rw [ih g (n / 10) (by omega) (by omega)]

/-- The defining recurrence of `natChars`. -/
theorem natChars_eq (n : Nat) :
    natChars n = if n < 10 then [digitChar n]
      else natChars (n / 10) ++ [digitChar (n % 10)] := by
  rw [natChars, show natCharsAux (n + 1) n = if n < 10 then [digitChar n]
      else natCharsAux n (n / 10) ++ [digitChar (n % 10)] from rfl]
  by_cases hn : n < 10
  · simp [hn]
  · simp only [hn, if_false]
    have hd : n / 10 < n := Nat.div_lt_self (by omega) (by omega)
    rw [natChars, natCharsAux_irrel n (n / 10 + 1) (n / 10) (by omega) (by omega)]

/-- Python `repr` of an int: optional minus, then decimal digits. -/
def intChars (i : Int) : Str :=
  if i < 0 then '-' :: natChars i.natAbs else natChars i.natAbs

/-- One character, escaped as Python's `json.dumps(..., ensure_ascii=False)`
escapes string contents: `"`, `\`, the named control escapes, `\u00XX` for
the remaining control characters, everything else verbatim. -/
def escChar (c : Char) : Str :=
  if c = '"' then ['\\', '"']
  else if c = '\\' then ['\\', '\\']
  else if c = '\n' then ['\\', 'n']
  else if c = '\r' then ['\\', 'r']
  else if c = '\t' then ['\\', 't']
  else if c.toNat = 8 then ['\\', 'b']
  else if c.toNat = 12 then ['\\', 'f']
  else if c.toNat < 32 then
    ['\\', 'u', '0', '0', hexDigitChar (c.toNat / 16), hexDigitChar (c.toNat % 16)]
  else [c]

/-- A string body, escaped character by character. -/
def escapeStr (s : Str) : Str := (s.map escChar).flatten

/-- `n` spaces. -/
def sp (n : Nat) : Str := List.replicate n ' '

mutual
/-- `json.dumps(v, indent=2, ensure_ascii=False)` at current indentation
column `ind` (the top-level call uses `ind = 0`). -/
def dumpVal : Nat → Jval → Str
  | _, .jnull => "null".toList
  | _, .jint n => intChars n
  | _, .jstr s => '"' :: (escapeStr s ++ ['"'])
  | _, .jarr [] => "[]".toList
  | ind, .jarr (v :: vs) =>
      '[' :: (dumpItems ind (v :: vs) ++ ('\n' :: (sp ind ++ [']'])))
  | _, .jobj [] => ['{', '}']
  | ind, .jobj (m :: ms) =>
      '{' :: (dumpMembers ind (m :: ms) ++ ('\n' :: (sp ind ++ ['}'])))
/-- The newline-indented, comma-separated items of a nonempty array. -/
def dumpItems : Nat → List Jval → Str
  | _, [] => []
  | ind, [v] => '\n' :: (sp (ind + 2) ++ dumpVal (ind + 2) v)
  | ind, v :: w :: vs =>
      '\n' :: (sp (ind + 2) ++ dumpVal (ind + 2) v) ++ (',' :: dumpItems ind (w :: vs))
/-- The newline-indented, comma-separated `"key": value` members of a
nonempty object. -/
def dumpMembers : Nat → List (Str × Jval) → Str
  | _, [] => []
  | ind, [(k, v)] =>
      '\n' :: (sp (ind + 2) ++ ('"' :: (escapeStr k ++ ['"'])) ++ (':' :: ' '
        :: dumpVal (ind + 2) v))
  | ind, (k, v) :: m :: ms =>
      '\n' :: (sp (ind + 2) ++ ('"' :: (escapeStr k ++ ['"'])) ++ (':' :: ' '
        :: dumpVal (ind + 2) v)) ++ (',' :: dumpMembers ind (m :: ms))
end

/-- JSON whitespace (`json.loads` skips exactly these). -/
def jws (c : Char) : Bool := c == ' ' || c == '\t' || c == '\n' || c == '\r'

/-- Drop leading JSON whitespace. -/
def skipWsJ : Str → Str
  | [] => []
  | c :: cs => if jws c then skipWsJ cs else c :: cs

/-- ASCII decimal digit test. -/
def isDigitC (c : Char) : Bool := '0' ≤ c && c ≤ '9'

/-- Split off the maximal leading digit run. -/
def grabDigits : Str → Str × Str
  | [] => ([], [])
  | c :: cs =>
      if isDigitC c then
        match grabDigits cs with
        | (ds, rest) => (c :: ds, rest)
      else ([], c :: cs)

/-- Numeric value of a digit run. -/
def digitsVal (ds : Str) : Nat :=
  ds.foldl (fun a c => a * 10 + (c.toNat - 48)) 0

/-- After an integer literal, a `.`/`e`/`E` would start a float continuation;
`to_dict` emits no floats, so the model rejects them. -/
def numTerm : Str → Bool
  | [] => true
  | c :: _ => !(c == '.' || c == 'e' || c == 'E')

/-- Parse a JSON integer token (optional minus, a digit run, no float
continuation). -/
def parseIntTok : Str → Option (Int × Str)
  | '-' :: cs =>
      match grabDigits cs with
      | ([], _) => none
      | (ds, rest) => if numTerm rest then some (-(digitsVal ds : Int), rest) else none
  | cs =>
      match grabDigits cs with
      | ([], _) => none
      | (ds, rest) => if numTerm rest then some ((digitsVal ds : Int), rest) else none

/-- Undo a single-character JSON escape. -/
def unescChar (c : Char) : Option Char :=
  if c = '"' then some '"'
  else if c = '\\' then some '\\'
  else if c = '/' then some '/'
  else if c = 'n' then some '\n'
  else if c = 'r' then some '\r'
  else if c = 't' then some '\t'
  else if c = 'b' then some (Char.ofNat 8)
  else if c = 'f' then some (Char.ofNat 12)
  else none

/-- Hex digit value. -/
def hexVal (c : Char) : Option Nat :=
  if '0' ≤ c && c ≤ '9' then some (c.toNat - 48)
  else if 'a' ≤ c && c ≤ 'f' then some (c.toNat - 87)
  else if 'A' ≤ c && c ≤ 'F' then some (c.toNat - 55)
  else none

/-- Parse a string body after the opening quote, strict about raw control
characters, handling the escapes of the JSON grammar. -/
def parseStrBody (acc : Str) : Str → Option (Str × Str)
  | [] => none
  | '"' :: rest => some (acc.reverse, rest)
  | '\\' :: 'u' :: a :: b :: c :: d :: rest =>
      match hexVal a, hexVal b, hexVal c, hexVal d with
      | some va, some vb, some vc, some vd =>
          parseStrBody (Char.ofNat (((va * 16 + vb) * 16 + vc) * 16 + vd) :: acc) rest
      | _, _, _, _ => none
  | '\\' :: e :: rest =>
      match unescChar e with
      | some ch => parseStrBody (ch :: acc) rest
      | none => none
  | c :: rest => if c.toNat < 32 then none else parseStrBody (c :: acc) rest

mutual
/-- Recursive-descent JSON value parser (models `json.loads` on the grammar
`to_dict` produces); `fuel` bounds the recursion and is in practice the input
length. Returns the value and the unconsumed remainder. -/
def parseJval : Nat → Str → Option (Jval × Str)
  | 0, _ => none
  | fuel + 1, cs =>
      match skipWsJ cs with
      | 'n' :: 'u' :: 'l' :: 'l' :: rest => some (.jnull, rest)
      | '"' :: rest =>
          match parseStrBody [] rest with
          | some (s, rest1) => some (.jstr s, rest1)
          | none => none
      | '[' :: rest =>
          match skipWsJ rest with
          | ']' :: rest2 => some (.jarr [], rest2)
          | _ =>
              match parseItems fuel rest with
              | some (vs, rest2) => some (.jarr vs, rest2)
              | none => none
      | '{' :: rest =>
          match skipWsJ rest with
          | '}' :: rest2 => some (.jobj [], rest2)
          | _ =>
              match parseMembers fuel rest with
              | some (ms, rest2) => some (.jobj ms, rest2)
              | none => none
      | c :: rest =>
          if c == '-' || isDigitC c then
            match parseIntTok (c :: rest) with
            | some (n, rest1) => some (.jint n, rest1)
            | none => none
          else none
      | [] => none
/-- One-or-more comma-separated array items up to the closing `]`. -/
def parseItems : Nat → Str → Option (List Jval × Str)
  | 0, _ => none
  | fuel + 1, cs =>
      match parseJval fuel cs with
      | none => none
      | some (v, rest) =>
          match skipWsJ rest with
          | ',' :: rest2 =>
              match parseItems fuel rest2 with
              | some (vs, rest3) => some (v :: vs, rest3)
              | none => none
          | ']' :: rest2 => some ([v], rest2)
          | _ => none
/-- One-or-more comma-separated `"key": value` members up to the closing
brace. -/
def parseMembers : Nat → Str → Option (List (Str × Jval) × Str)
  | 0, _ => none
  | fuel + 1, cs =>
      match skipWsJ cs with
      | '"' :: rest =>
          match parseStrBody [] rest with
          | none => none
          | some (k, rest1) =>
              match skipWsJ rest1 with
              | ':' :: rest2 =>
                  match parseJval fuel rest2 with
                  | none => none
                  | some (v, rest3) =>
                      match skipWsJ rest3 with
                      | ',' :: rest4 =>
                          match parseMembers fuel rest4 with
                          | some (ms, rest5) => some ((k, v) :: ms, rest5)
                          | none => none
                      | '}' :: rest4 => some ([(k, v)], rest4)
                      | _ => none
              | _ => none
      | _ => none
end

/-- `json.loads`: parse one document, requiring only whitespace after it;
any failure is a `JSONDecodeError`, i.e. `none`. -/
def json_loads (cs : Str) : Option Jval :=
  match parseJval (cs.length + 1) cs with
  | some (v, rest) => if (skipWsJ rest).isEmpty then some v else none
  | none => none

/-- `null` for `None`, the string otherwise. -/
def optStrJ : Option Str → Jval
  | none => .jnull
  | some s => .jstr s

/-- `null` for `None`, the int otherwise. -/
def optIntJ : Option Int → Jval
  | none => .jnull
  | some n => .jint n

/-- The dictionary `AgentState.to_dict` builds for one iteration, keys in
source order. `timestamp.isoformat()` is the identity in this model (datetimes
are carried as their ISO serialization). -/
def iteration_to_dict (it : Iteration) : Jval :=
  .jobj [("number".toList, .jint it.number),
         ("status".toList, .jstr it.status.value),
         ("changes".toList, .jarr (it.changes.map .jstr)),
         ("review_feedback".toList, optStrJ it.review_feedback),
         ("ci_status".toList, optStrJ it.ci_status),
         ("commit_sha".toList, optStrJ it.commit_sha),
         ("timestamp".toList, .jstr it.timestamp)]

/-- `AgentState.to_dict`, keys in source order. -/
def to_dict (s : AgentState) : Jval :=
  .jobj [("issue_number".toList, .jint s.issue_number),
         ("pr_number".toList, optIntJ s.pr_number),
         ("branch_name".toList, .jstr s.branch_name),
         ("iterations".toList, .jarr (s.iterations.map iteration_to_dict)),
         ("requirements_hash".toList, .jstr s.requirements_hash),
         ("created_at".toList, .jstr s.created_at),
         ("updated_at".toList, .jstr s.updated_at)]

/-- Dict lookup on parsed object members; a later duplicate key shadows an
earlier one, as in a Python dict built by insertion. -/
def jGet : List (Str × Jval) → Str → Option Jval
  | [], _ => none
  | (k0, v0) :: rest, k =>
      match jGet rest k with
      | some v => some v
      | none => if k0 = k then some v0 else none

/-- Read an optional string field (`data.get(key)`): missing and `null` give
`None`; a present value must be a string (the dataclasses are typed so in
practice it always is). -/
def jGetOptStr (ms : List (Str × Jval)) (k : Str) : Option (Option Str) :=
  match jGet ms k with
  | none => some none
  | some .jnull => some none
  | some (.jstr s) => some (some s)
  | some _ => none

/-- `Iteration` from one parsed dictionary, mirroring `AgentState.from_dict`:
`number` and `status` are required (`KeyError`/`ValueError` give `none`),
the rest use `.get` defaults. A missing `timestamp` keeps the dataclass
default `datetime.utcnow()`, modelled as the unspecified stamp `[]`;
`datetime.fromisoformat` is the identity on the serialized form. -/
def iteration_from_dict (j : Jval) : Option Iteration :=
  match j with
  | .jobj ms =>
      match jGet ms "number".toList with
      | some (.jint n) =>
          (match jGet ms "status".toList with
           | some (.jstr sv) =>
               (match IterationStatus.ofValue sv with
                | some st =>
                    (match (match jGet ms "changes".toList with
                            | none => some []
                            | some (.jarr items) =>
                                items.mapM (fun item =>
                                  match item with
                                  | .jstr s => some s
                                  | _ => none)
                            | some _ => none) with
                     | some changes =>
                         (match jGetOptStr ms "review_feedback".toList with
                          | some fb =>
                              (match jGetOptStr ms "ci_status".toList with
                               | some ci =>
                                   (match jGetOptStr ms "commit_sha".toList with
                                    | some sha =>
                                        (match (match jGet ms "timestamp".toList with
                                                | none => some ([] : Str)
                                                | some (.jstr ts) => some ts
                                                | some _ => none) with
                                         | some ts =>
                                             some { number := n, status := st
                                                    changes := changes
                                                    review_feedback := fb
                                                    ci_status := ci
                                                    commit_sha := sha
                                                    timestamp := ts }
                                         | none => none)
                                    | none => none)
                               | none => none)
                          | none => none)
                     | none => none)
                | none => none)
           | _ => none)
      | _ => none
  | _ => none

/-- `AgentState.from_dict`: `issue_number` is required, the rest default
(`pr_number` to `None`, strings to `""`, `iterations` to `[]`); the
timestamps keep the `utcnow` dataclass default (the unspecified stamp `[]`)
when missing. Type failures give `none` where Python would raise
`KeyError`/`ValueError` (caught by the caller). -/
def from_dict (j : Jval) : Option AgentState :=
  match j with
  | .jobj ms =>
      match jGet ms "issue_number".toList with
      | some (.jint n) =>
          (match (match jGet ms "pr_number".toList with
                  | none => some none
                  | some .jnull => some none
                  | some (.jint m) => some (some m)
                  | some _ => none) with
           | some prn =>
               (match (match jGet ms "branch_name".toList with
                       | none => some ([] : Str)
                       | some (.jstr s) => some s
                       | some _ => none) with
                | some bn =>
                    (match (match jGet ms "requirements_hash".toList with
                            | none => some ([] : Str)
                            | some (.jstr s) => some s
                            | some _ => none) with
                     | some rh =>
                         (match (match jGet ms "created_at".toList with
                                 | none => some ([] : Str)
                                 | some (.jstr s) => some s
                                 | some _ => none) with
                          | some ca =>
                              (match (match jGet ms "updated_at".toList with
                                      | none => some ([] : Str)
                                      | some (.jstr s) => some s
                                      | some _ => none) with
                               | some ua =>
                                   (match (match jGet ms "iterations".toList with
                                           | none => some ([] : List Jval)
                                           | some (.jarr items) => some items
                                           | some _ => none) with
                                    | some items =>
                                        (match items.mapM iteration_from_dict with
                                         | some its =>
                                             some { issue_number := n, pr_number := prn
                                                    branch_name := bn, iterations := its
                                                    requirements_hash := rh
                                                    created_at := ca, updated_at := ua }
                                         | none => none)
                                    | none => none)
                               | none => none)
                          | none => none)
                     | none => none)
                | none => none)
           | none => none)
      | _ => none
  | _ => none

/-- `STATE_MARKER_START` from `src/patcher/state/manager.py`. -/
def STATE_MARKER_START : Str := "<!-- PATCHER_STATE_START".toList

/-- `STATE_MARKER_END` from `src/patcher/state/manager.py`. -/
def STATE_MARKER_END : Str := "PATCHER_STATE_END -->".toList

/-- The serialized state: `json.dumps(state.to_dict(), indent=2,
ensure_ascii=False)`. -/
def state_json (s : AgentState) : Str := dumpVal 0 (to_dict s)

/-- `StateManager.format_state_for_pr` (also the `state_block` of
`save_to_pr`): start marker line, the JSON, end marker line. -/
def format_state_for_pr (s : AgentState) : Str :=
  STATE_MARKER_START ++ '\n' :: (state_json s ++ '\n' :: STATE_MARKER_END)

/-- Split the text at the first (leftmost) occurrence of `pat`:
`some (before, after)` with `text = before ++ pat ++ after`. -/
def splitFirstSub (pat : Str) : Str → Option (Str × Str)
  | [] => if pat.isEmpty then some ([], []) else none
  | c :: rest =>
      if startsWithL pat (c :: rest) then some ([], (c :: rest).drop pat.length)
      else
        match splitFirstSub pat rest with
        | some (pre, post) => some (c :: pre, post)
        | none => none

/-- `re.search(rf"{START}.*?{END}", body, re.DOTALL)` succeeds iff the first
start-marker occurrence is followed, somewhere, by the end marker (later
start markers see only a subset of the remaining text, so checking the first
suffices). -/
def hasStateBlock (body : Str) : Bool :=
  match splitFirstSub STATE_MARKER_START body with
  | some (_, post) => (splitFirstSub STATE_MARKER_END post).isSome
  | none => false

/-- `re.sub(rf"{START}.*?{END}", block, body, re.DOTALL)`: replace every
non-overlapping leftmost match — a start marker with an end marker after it,
the match ending at the first such end marker — scanning on after each
replacement. Fuel is the input length (each replacement consumes at least the
two markers). -/
def subStateBlocksF : Nat → Str → Str → Str
  | 0, cs, _ => cs
  | _ + 1, [], _ => []
  | fuel + 1, c :: rest, repl =>
      if startsWithL STATE_MARKER_START (c :: rest) then
        match splitFirstSub STATE_MARKER_END ((c :: rest).drop STATE_MARKER_START.length) with
        | some (_, post) => repl ++ subStateBlocksF fuel post repl
        | none => c :: subStateBlocksF fuel rest repl
      else c :: subStateBlocksF fuel rest repl

/-- The body-rewriting step of `StateManager.save_to_pr`: replace an existing
fenced block in place, else append the block after two blank lines. -/
def save_to_pr_body (body : Str) (state : AgentState) : Str :=
  if hasStateBlock body then
    subStateBlocksF body.length body (format_state_for_pr state)
  else body ++ '\n' :: '\n' :: format_state_for_pr state

/-- The group of the leftmost match of
`rf"{START}\n(.*?)\n{END}"` (DOTALL): scanning left to right, the first
start-marker occurrence followed by a newline that has `\n{END}` somewhere
after it; the group ends at the first such `\n{END}`. -/
def findStateGroup : Str → Option Str
  | [] => none
  | c :: rest =>
      if startsWithL STATE_MARKER_START (c :: rest) then
        match (c :: rest).drop STATE_MARKER_START.length with
        | '\n' :: tail =>
            match splitFirstSub ('\n' :: STATE_MARKER_END) tail with
            | some (grp, _) => some grp
            | none => findStateGroup rest
        | _ => findStateGroup rest
      else findStateGroup rest

/-- The body-reading step of `StateManager.load_from_pr`: extract the fenced
group, `json.loads` it, and build the state with `AgentState.from_dict`;
a missing block, a JSON parse failure, or a `from_dict` failure all give
`None`. -/
def load_from_pr_body (body : Str) : Option AgentState :=
  match findStateGroup body with
  | none => none
  | some grp =>
      match json_loads grp with
      | none => none
      | some j => from_dict j

/-- Python `str.strip()` whitespace (ASCII). -/
def isPySpace (c : Char) : Bool :=
  c == ' ' || c == '\t' || c == '\n' || c == '\r' || c == Char.ofNat 11 || c == Char.ofNat 12

/-- Python `s.strip()`. -/
def pyStrip (s : Str) : Str :=
  ((s.dropWhile isPySpace).reverse.dropWhile isPySpace).reverse

/-- One attempted match of `rf"\n*{START}.*?{END}\n*"` (DOTALL) at the start
of `cs`: greedily consumed leading newlines must be followed directly by the
start marker, the match ends at the first end marker, and trailing newlines
are consumed greedily. Returns the remainder after the match. -/
def tryBlockMatch (cs : Str) : Option Str :=
  if startsWithL STATE_MARKER_START (cs.dropWhile (· == '\n')) then
    match splitFirstSub STATE_MARKER_END
        ((cs.dropWhile (· == '\n')).drop STATE_MARKER_START.length) with
    | some (_, post) => some (post.dropWhile (· == '\n'))
    | none => none
  else none

/-- `re.sub(rf"\n*{START}.*?{END}\n*", "", body, re.DOTALL)`: remove every
leftmost match. Fuel is the input length. -/
def stripStateBlocksF : Nat → Str → Str
  | 0, cs => cs
  | _ + 1, [] => []
  | fuel + 1, c :: rest =>
      match tryBlockMatch (c :: rest) with
      | some post => stripStateBlocksF fuel post
      | none => c :: stripStateBlocksF fuel rest

/-- `StateManager.extract_visible_body`: remove the fenced block(s) with their
newline padding, then `strip()` the result. -/
def extract_visible_body (body : Str) : Str :=
  pyStrip (stripStateBlocksF body.length body)

/-! ### Occurrence toolkit

Character-level lemmas about `startsWithL`, `containsSubL`, `splitFirstSub`
and the marker scanners, used to locate the fenced block inside a merged
body. -/

theorem startsWithL_iff (p t : Str) : startsWithL p t = true ↔ ∃ v, t = p ++ v := by
  induction p generalizing t with
  | nil => simp [startsWithL]
  | cons c cs ih =>
      cases t with
      | nil =>
          simp only [startsWithL]
          constructor
          · intro h; exact absurd h (by simp)
          · rintro ⟨v, hv⟩; exact absurd hv (by simp)
      | cons d ds =>
          simp only [startsWithL, Bool.and_eq_true, beq_iff_eq]
          constructor
          · rintro ⟨rfl, h⟩
            obtain ⟨v, rfl⟩ := (ih ds).mp h
            exact ⟨v, rfl⟩
          · rintro ⟨v, hv⟩
            injection hv with h1 h2
            exact ⟨h1.symm, (ih ds).mpr ⟨v, h2⟩⟩

theorem containsSubL_iff (p t : Str) :
    containsSubL p t = true ↔ ∃ u v, t = u ++ p ++ v := by
  induction t with
  | nil =>
      simp only [containsSubL, List.isEmpty_iff]
      constructor
      · rintro rfl; exact ⟨[], [], rfl⟩
      · rintro ⟨u, v, hv⟩
        rcases List.append_eq_nil.mp (List.append_eq_nil.mp hv.symm).1 with ⟨_, h⟩
        exact h
  | cons c cs ih =>
      simp only [containsSubL, Bool.or_eq_true, startsWithL_iff, ih]
      constructor
      · rintro (⟨v, hv⟩ | ⟨u, v, hv⟩)
        · exact ⟨[], v, by simp [hv]⟩
        · exact ⟨c :: u, v, by simp [hv]⟩
      · rintro ⟨u, v, hv⟩
        cases u with
        | nil => exact Or.inl ⟨v, by simpa using hv⟩
        | cons x xs =>
            injection hv with h1 h2
            exact Or.inr ⟨xs, v, h2⟩

theorem startsWithL_append_cases (p x b : Str) (h : startsWithL p (x ++ b) = true) :
    (∃ t, x = p ++ t) ∨ (∃ w, p = x ++ w ∧ startsWithL w b = true) := by
  obtain ⟨v, hv⟩ := (startsWithL_iff _ _).mp h
  rcases List.append_eq_append_iff.mp hv with ⟨w, hw1, hw2⟩ | ⟨w, hw1, hw2⟩
  · exact Or.inr ⟨w, hw1, by rw [hw2]; exact startsWithL_self_append ..⟩
  · exact Or.inl ⟨w, hw1⟩

theorem containsSubL_mono_right (p a s : Str) (h : containsSubL p a = true) :
    containsSubL p (a ++ s) = true := by
  obtain ⟨u, v, rfl⟩ := (containsSubL_iff _ _).mp h
  exact (containsSubL_iff _ _).mpr ⟨u, v ++ s, by simp⟩

/-- No occurrence of `p` survives appending characters that `p` does not
contain. -/
theorem containsSubL_append_false (p T S : Str) (hp : p ≠ [])
    (hT : containsSubL p T = false) (hS : ∀ c ∈ S, c ∉ p) :
    containsSubL p (T ++ S) = false := by
  by_contra h
  rw [Bool.not_eq_false] at h
  obtain ⟨u, v, hv⟩ := (containsSubL_iff _ _).mp h
  rw [List.append_assoc] at hv
  rcases List.append_eq_append_iff.mp hv with ⟨w, hw1, hw2⟩ | ⟨w, hw1, hw2⟩
  · -- S = w ++ (p ++ v): p sits inside S
    cases p with
    | nil => exact hp rfl
    | cons hd tl =>
        exact hS hd (by rw [hw2]; simp) (by simp)
  · -- T = u ++ w, p ++ v = w ++ S
    rcases List.append_eq_append_iff.mp hw2 with ⟨z, hz1, hz2⟩ | ⟨z, hz1, hz2⟩
    · -- w = p ++ z: p inside T
      have : containsSubL p T = true :=
        (containsSubL_iff _ _).mpr ⟨u, z, by rw [hw1, hz1, List.append_assoc]⟩
      simp [this] at hT
    · -- p = w ++ z, S = z ++ v
      cases z with
      | nil =>
          have : containsSubL p T = true :=
            (containsSubL_iff _ _).mpr ⟨u, [], by simp [hw1, hz1]⟩
          simp [this] at hT
      | cons hd tl =>
          exact hS hd (by rw [hz2]; simp) (by rw [hz1]; simp)

/-- Symmetric version: prepending characters that `p` does not contain. -/
theorem containsSubL_prepend_false (p S T : Str) (hp : p ≠ [])
    (hT : containsSubL p T = false) (hS : ∀ c ∈ S, c ∉ p) :
    containsSubL p (S ++ T) = false := by
  by_contra h
  rw [Bool.not_eq_false] at h
  obtain ⟨u, v, hv⟩ := (containsSubL_iff _ _).mp h
  rw [List.append_assoc] at hv
  rcases List.append_eq_append_iff.mp hv with ⟨w, hw1, hw2⟩ | ⟨w, hw1, hw2⟩
  · -- u = S ++ w: p sits inside T (T = w ++ p ++ v)
    have : containsSubL p T = true :=
      (containsSubL_iff _ _).mpr ⟨w, v, by rw [hw2, ← List.append_assoc]⟩
    simp [this] at hT
  · -- S = u ++ w, p ++ v = w ++ T
    rcases List.append_eq_append_iff.mp hw2 with ⟨z, hz1, hz2⟩ | ⟨z, hz1, hz2⟩
    · -- w = p ++ z: p inside S
      cases p with
      | nil => exact hp rfl
      | cons hd tl => exact hS hd (by rw [hw1, hz1]; simp) (by simp)
    · -- p = w ++ z, T = z ++ v
      cases w with
      | nil =>
          have : containsSubL p T = true :=
            (containsSubL_iff _ _).mpr ⟨[], v, by simp [hz1, ← hz2]⟩
          simp [this] at hT
      | cons hd tl => exact hS hd (by rw [hw1]; simp) (by rw [hz1]; simp)

/-- A nonempty suffix of a region that ends in a newline cannot start a match
of a newline-free pattern that does not occur inside the region (whatever
follows the region). -/
theorem no_suffix_match_of_last_nl (pat x b : Str) (hp : '\n' ∉ pat)
    (hx : containsSubL pat x = false) (hxl : x.getLast? = some '\n') :
    ∀ x1 x2, x = x1 ++ x2 → x2 ≠ [] → startsWithL pat (x2 ++ b) = false := by
  intro x1 x2 hsplit hne
  by_contra hT
  rw [Bool.not_eq_false] at hT
  rcases startsWithL_append_cases pat x2 b hT with ⟨t, ht⟩ | ⟨w, hw, _⟩
  · have : containsSubL pat x = true :=
      (containsSubL_iff _ _).mpr ⟨x1, t, by rw [hsplit, ht, List.append_assoc]⟩
    simp [this] at hx
  · have hlast : x2.getLast? = some '\n' := by
      rw [hsplit, List.getLast?_append_of_ne_nil _ hne] at hxl
      exact hxl
    have h1 : '\n' ∈ x2 := by
      have : '\n' ∈ x2.getLast? := hlast ▸ rfl
      obtain ⟨hne2, heq⟩ := List.mem_getLast?_eq_getLast this
      exact heq ▸ List.getLast_mem hne2
    exact hp (by rw [hw]; exact List.mem_append_left _ h1)

/-- A nonempty suffix of a region cannot start a match of a newline-free
pattern that does not occur inside the region, when the text that follows the
region begins with a newline. -/
theorem no_suffix_match_of_head_nl (pat x b : Str) (hp : '\n' ∉ pat)
    (hx : containsSubL pat x = false) (hb : ∃ t, b = '\n' :: t) :
    ∀ x1 x2, x = x1 ++ x2 → x2 ≠ [] → startsWithL pat (x2 ++ b) = false := by
  intro x1 x2 hsplit hne
  by_contra hT
  rw [Bool.not_eq_false] at hT
  rcases startsWithL_append_cases pat x2 b hT with ⟨t, ht⟩ | ⟨w, hw, hwb⟩
  · have : containsSubL pat x = true :=
      (containsSubL_iff _ _).mpr ⟨x1, t, by rw [hsplit, ht, List.append_assoc]⟩
    simp [this] at hx
  · cases w with
    | nil =>
        have : containsSubL pat x = true :=
          (containsSubL_iff _ _).mpr ⟨x1, [], by simp [hsplit, hw]⟩
        simp [this] at hx
    | cons c w' =>
        obtain ⟨t, rfl⟩ := hb
        obtain ⟨v, hv⟩ := (startsWithL_iff _ _).mp hwb
        injection hv with h1 _
        exact hp (by rw [hw, ← h1]; simp)

theorem splitFirstSub_none_iff (pat t : Str) (hp : pat ≠ []) :
    splitFirstSub pat t = none ↔ containsSubL pat t = false := by
  induction t with
  | nil =>
      have hpe : pat.isEmpty = false := by
        cases pat with
        | nil => exact absurd rfl hp
        | cons c cs => rfl
      simp [splitFirstSub, containsSubL, hpe]
  | cons c cs ih =>
      simp only [splitFirstSub, containsSubL]
      cases h : startsWithL pat (c :: cs) with
      | true => simp [h]
      | false =>
          simp only [Bool.false_eq_true, if_false, Bool.false_or]
          cases hs : splitFirstSub pat cs with
          | none => simp [hs, ih.mp hs]
          | some pr =>
              have : containsSubL pat cs = true := by
                by_contra hcc
                rw [Bool.not_eq_true] at hcc
                rw [ih.mpr hcc] at hs
                exact Option.noConfusion hs
              simp [hs, this]

/-- `splitFirstSub` finds exactly the designated occurrence when no earlier
one can start (the condition quantifies over the nonempty suffixes of the
leading region). -/
theorem splitFirstSub_skip (pat x y : Str) (hp : pat ≠ [])
    (hcond : ∀ x1 x2, x = x1 ++ x2 → x2 ≠ [] →
      startsWithL pat (x2 ++ pat ++ y) = false) :
    splitFirstSub pat (x ++ pat ++ y) = some (x, y) := by
  induction x with
  | nil =>
      cases pat with
      | nil => exact absurd rfl hp
      | cons c ps =>
          simp only [List.nil_append]
          have hsw : startsWithL (c :: ps) ((c :: ps) ++ y) = true := startsWithL_self_append ..
          rw [show (c :: ps) ++ y = c :: (ps ++ y) from rfl] at hsw ⊢
          simp only [splitFirstSub, hsw, if_true]
          rw [show c :: (ps ++ y) = (c :: ps) ++ y from rfl, List.drop_left]
  | cons c cs ih =>
      have hno : startsWithL pat ((c :: cs) ++ pat ++ y) = false := hcond [] (c :: cs) rfl (by simp)
      have hys : (c :: cs) ++ pat ++ y = c :: (cs ++ pat ++ y) := by simp
      rw [hys] at hno ⊢
      simp only [splitFirstSub, hno, Bool.false_eq_true, if_false]
      rw [ih (fun x1 x2 hx hne => hcond (c :: x1) x2 (by rw [hx]; rfl) hne)]

/-- The group scanner passes over a region none of whose nonempty suffixes
can start a start-marker match. -/
theorem findStateGroup_skip (x b : Str)
    (hcond : ∀ x1 x2, x = x1 ++ x2 → x2 ≠ [] →
      startsWithL STATE_MARKER_START (x2 ++ b) = false) :
    findStateGroup (x ++ b) = findStateGroup b := by
  induction x with
  | nil => rfl
  | cons c cs ih =>
      have hno : startsWithL STATE_MARKER_START ((c :: cs) ++ b) = false :=
        hcond [] (c :: cs) rfl (by simp)
      have hys : (c :: cs) ++ b = c :: (cs ++ b) := by simp
      rw [hys] at hno ⊢
      simp only [findStateGroup, hno, Bool.false_eq_true, if_false]
      exact ih (fun x1 x2 hx hne => hcond (c :: x1) x2 (by rw [hx]; rfl) hne)

/-! ### Shape of the serialized JSON

Every newline in `json.dumps(..., indent=2)` output is a formatting newline:
it is followed by an indentation space or a closing bracket, and the output
never ends in a newline. This rules out any `\n`-anchored marker occurrence
inside the serialized state. -/

/-- The characters that may follow a formatting newline. -/
def closeChar (c : Char) : Bool := c == ' ' || c == ']' || c == '}'

/-- Every `\n` is followed by an indentation space or a closing bracket, and
the text does not end in `\n`. -/
def nlGood : Str → Bool
  | [] => true
  | c :: rest =>
      if c = '\n' then
        match rest with
        | [] => false
        | d :: _ => closeChar d && nlGood rest
      else nlGood rest

theorem nlGood_of_no_nl (l : Str) (h : ∀ c ∈ l, c ≠ '\n') : nlGood l = true := by
  induction l with
  | nil => rfl
  | cons c rest ih =>
      have hc : c ≠ '\n' := h c (by simp)
      simp only [nlGood, if_neg hc]
      exact ih (fun d hd => h d (by simp [hd]))

theorem nlGood_tail (c : Char) (rest : Str) (h : nlGood (c :: rest) = true) :
    nlGood rest = true := by
  by_cases hc : c = '\n'
  · subst hc
    cases rest with
    | nil => rfl
    | cons d t =>
        simp only [nlGood, if_true, reduceIte, Bool.and_eq_true] at h
        exact h.2
  · simpa [nlGood, hc] using h

theorem nlGood_append (a b : Str) (ha : nlGood a = true) (hb : nlGood b = true) :
    nlGood (a ++ b) = true := by
  induction a with
  | nil => simpa
  | cons c rest ih =>
      have hrest : nlGood rest = true := nlGood_tail c rest ha
      by_cases hc : c = '\n'
      · subst hc
        cases rest with
        | nil => simp [nlGood] at ha
        | cons d t =>
            simp only [nlGood, if_true, reduceIte, Bool.and_eq_true] at ha
            have := ih hrest
            simpa [nlGood, ha.1] using this
      · have := ih hrest
        simpa [nlGood, hc] using this

theorem nlGood_getLast_ne_nl (l : Str) (h : nlGood l = true) :
    l.getLast? ≠ some '\n' := by
  induction l with
  | nil => simp
  | cons c rest ih =>
      cases rest with
      | nil =>
          by_cases hc : c = '\n'
          · subst hc; simp [nlGood] at h
          · simpa using hc
      | cons d t =>
          rw [List.getLast?_cons_cons]
          exact ih (nlGood_tail c (d :: t) h)

theorem nlGood_inner_close (u : Str) (c : Char) (v : Str)
    (h : nlGood (u ++ '\n' :: c :: v) = true) : closeChar c = true := by
  induction u with
  | nil =>
      simp only [List.nil_append, nlGood, if_true, reduceIte, Bool.and_eq_true] at h
      exact h.1
  | cons a u' ih =>
      exact ih (nlGood_tail a _ (by simpa using h))

/-- A pattern of the form `'\n' :: c :: tail` with a non-closing `c` has no
occurrence inside an `nlGood` text. -/
theorem nlGood_no_nl_pattern (J : Str) (hJ : nlGood J = true) (c : Char) (tail : Str)
    (hc : closeChar c = false) :
    containsSubL ('\n' :: c :: tail) J = false := by
  by_contra h
  rw [Bool.not_eq_false] at h
  obtain ⟨u, v, hv⟩ := (containsSubL_iff _ _).mp h
  have : nlGood (u ++ '\n' :: c :: (tail ++ v)) = true := by
    rw [show u ++ '\n' :: c :: (tail ++ v) = u ++ ('\n' :: c :: tail) ++ v by simp] at *
    exact hv ▸ hJ
  have := nlGood_inner_close u c (tail ++ v) this
  simp [this] at hc

/-! ### Digit and escape lemmas -/

theorem natChars_ne_nil (n : Nat) : natChars n ≠ [] := by
  rw [natChars_eq]
  split <;> simp

theorem isDigitC_digitChar (d : Nat) (h : d < 10) : isDigitC (digitChar d) = true := by
  interval_cases d <;> decide

theorem natChars_all_digits (n : Nat) : ∀ c ∈ natChars n, isDigitC c = true := by
  induction n using Nat.strong_induction_on with
  | _ n ih =>
      rw [natChars_eq]
      split
      · intro c hc
        rw [List.mem_singleton] at hc
        subst hc
        exact isDigitC_digitChar n (by omega)
      · intro c hc
        rcases List.mem_append.mp hc with h | h
        · exact ih (n / 10) (Nat.div_lt_self (by omega) (by omega)) c h
        · rw [List.mem_singleton] at h
          subst h
          exact isDigitC_digitChar (n % 10) (Nat.mod_lt _ (by omega))

theorem toNat_digitChar (d : Nat) (h : d < 10) : (digitChar d).toNat = 48 + d := by
  interval_cases d <;> decide

theorem digitsVal_natChars (n : Nat) : digitsVal (natChars n) = n := by
  induction n using Nat.strong_induction_on with
  | _ n ih =>
      rw [natChars_eq]
      split
      · rename_i h
        simp [digitsVal, toNat_digitChar n (by omega)]
      · rename_i h
        have ihd := ih (n / 10) (Nat.div_lt_self (by omega) (by omega))
        rw [digitsVal, List.foldl_append]
        rw [digitsVal] at ihd
        rw [ihd]
        simp only [List.foldl_cons, List.foldl_nil]
        rw [toNat_digitChar (n % 10) (Nat.mod_lt _ (by omega))]
        omega

theorem nlGood_cons_ne (c : Char) (x : Str) (hc : c ≠ '\n') :
    nlGood (c :: x) = nlGood x := by
  simp [nlGood, hc]

theorem nlGood_nl_cons (d : Char) (t : Str) :
    nlGood ('\n' :: d :: t) = (closeChar d && nlGood (d :: t)) := rfl

theorem nlGood_nl_block (x : Str) (hx : nlGood x = true)
    (d : Char) (t : Str) (hxe : x = d :: t) (hd : closeChar d = true) :
    nlGood ('\n' :: x) = true := by
  subst hxe
  rw [nlGood_nl_cons, hd, hx]
  rfl

theorem digit_ne_nl (c : Char) (h : isDigitC c = true) : c ≠ '\n' := by
  intro hc
  subst hc
  exact absurd h (by decide)

theorem hexDigitChar_ne_nl (k : Nat) (h : k < 16) : hexDigitChar k ≠ '\n' := by
  interval_cases k <;> decide

theorem escChar_no_nl (c : Char) : ∀ d ∈ escChar c, d ≠ '\n' := by
  intro d hd heq
  subst heq
  rw [escChar] at hd
  repeat' split at hd
  all_goals simp_all
  · rcases hd with h | h
    · exact hexDigitChar_ne_nl (c.toNat / 16) (by omega) h.symm
    · exact hexDigitChar_ne_nl (c.toNat % 16) (by omega) h.symm
  · rename_i h1 h2 h3 h4 h5 h6 h7 h8
    subst hd
    exact absurd h8 (by decide)

theorem escapeStr_no_nl (s : Str) : ∀ d ∈ escapeStr s, d ≠ '\n' := by
  intro d hd
  rw [escapeStr] at hd
  obtain ⟨l, hl, hdl⟩ := List.mem_flatten.mp hd
  obtain ⟨c, _, rfl⟩ := List.mem_map.mp hl
  exact escChar_no_nl c d hdl

theorem sp_no_nl (n : Nat) : ∀ c ∈ sp n, c ≠ '\n' := by
  intro c hc
  rw [sp] at hc
  rw [List.eq_of_mem_replicate hc]
  decide

theorem nlGood_string_chunk (s : Str) : nlGood ('"' :: (escapeStr s ++ ['"'])) = true := by
  apply nlGood_of_no_nl
  intro d hd
  rcases List.mem_cons.mp hd with h | h
  · subst h; decide
  · rcases List.mem_append.mp h with h2 | h2
    · exact escapeStr_no_nl s d h2
    · rw [List.mem_singleton] at h2; subst h2; decide

theorem nlGood_intChars (i : Int) : nlGood (intChars i) = true := by
  apply nlGood_of_no_nl
  intro d hd
  rw [intChars] at hd
  split at hd
  · rcases List.mem_cons.mp hd with h | h
    · subst h; decide
    · exact digit_ne_nl d (natChars_all_digits _ d h)
  · exact digit_ne_nl d (natChars_all_digits _ d hd)

/-- The trailing `'\n' :: indent ++ [closing-bracket]` chunk is well-shaped. -/
theorem nlGood_close_chunk (n : Nat) (c : Char) (hc : closeChar c = true) :
    nlGood ('\n' :: (sp n ++ [c])) = true := by
  cases n with
  | zero =>
      have hcne : c ≠ '\n' := by
        intro h; subst h; simp [closeChar] at hc
      show nlGood ('\n' :: (sp 0 ++ [c])) = true
      rw [show sp 0 ++ [c] = [c] from rfl]
      have hone : nlGood [c] = true := by simp [nlGood, hcne]
      rw [nlGood_nl_cons, hc, hone]
      rfl
  | succ m =>
      apply nlGood_nl_block _ ?_ ' ' (sp m ++ [c]) ?_ (by decide)
      · apply nlGood_of_no_nl
        intro d hd
        rcases List.mem_cons.mp hd with h | h
        · subst h; decide
        · rcases List.mem_append.mp h with h2 | h2
          · exact sp_no_nl m d h2
          · rw [List.mem_singleton] at h2; subst h2
            intro heq; subst heq; exact absurd hc (by decide)
      · show sp (m + 1) ++ [c] = ' ' :: (sp m ++ [c])
        simp [sp, List.replicate_succ]

mutual
theorem nlGood_dumpVal : ∀ (ind : Nat) (j : Jval), nlGood (dumpVal ind j) = true
  | _, .jnull => by
      show nlGood ("null".toList) = true
      decide
  | _, .jint n => nlGood_intChars n
  | _, .jstr s => nlGood_string_chunk s
  | ind, .jarr [] => by
      show nlGood ("[]".toList) = true
      decide
  | ind, .jarr (v :: vs) => by
      rw [dumpVal, nlGood_cons_ne _ _ (by decide)]
      exact nlGood_append _ _ (nlGood_dumpItems ind (v :: vs))
        (nlGood_close_chunk ind ']' (by decide))
  | ind, .jobj [] => by
      show nlGood ['{', '}'] = true
      decide
  | ind, .jobj (m :: ms) => by
      rw [dumpVal, nlGood_cons_ne _ _ (by decide)]
      exact nlGood_append _ _ (nlGood_dumpMembers ind (m :: ms))
        (nlGood_close_chunk ind '}' (by decide))

theorem nlGood_dumpItems : ∀ (ind : Nat) (l : List Jval), nlGood (dumpItems ind l) = true
  | _, [] => rfl
  | ind, [v] => by
      rw [dumpItems]
      refine nlGood_nl_block _ ?_ ' ' (sp (ind + 1) ++ dumpVal (ind + 2) v) ?_ (by decide)
      · exact nlGood_append _ _ (nlGood_of_no_nl _ (sp_no_nl (ind + 2)))
          (nlGood_dumpVal (ind + 2) v)
      · show sp (ind + 2) ++ dumpVal (ind + 2) v = ' ' :: (sp (ind + 1) ++ dumpVal (ind + 2) v)
        simp [sp, List.replicate_succ]
  | ind, v :: w :: vs => by
      rw [dumpItems]
      refine nlGood_append _ _ ?_ ?_
      · refine nlGood_nl_block _ ?_ ' '
          (sp (ind + 1) ++ dumpVal (ind + 2) v) ?_ (by decide)
        · exact nlGood_append _ _ (nlGood_of_no_nl _ (sp_no_nl (ind + 2)))
            (nlGood_dumpVal (ind + 2) v)
        · show sp (ind + 2) ++ dumpVal (ind + 2) v
            = ' ' :: (sp (ind + 1) ++ dumpVal (ind + 2) v)
          simp [sp, List.replicate_succ]
      · rw [nlGood_cons_ne _ _ (by decide)]
        exact nlGood_dumpItems ind (w :: vs)

theorem nlGood_dumpMembers : ∀ (ind : Nat) (l : List (Str × Jval)),
    nlGood (dumpMembers ind l) = true
  | _, [] => rfl
  | ind, [(k, v)] => by
      rw [dumpMembers]
      refine nlGood_nl_block _ ?_ ' '
        (sp (ind + 1) ++ ('"' :: (escapeStr k ++ ['"'])) ++ (':' :: ' '
          :: dumpVal (ind + 2) v)) ?_ (by decide)
      · refine nlGood_append _ _ (nlGood_append _ _
          (nlGood_of_no_nl _ (sp_no_nl (ind + 2))) (nlGood_string_chunk k)) ?_
        rw [nlGood_cons_ne _ _ (by decide), nlGood_cons_ne _ _ (by decide)]
        exact nlGood_dumpVal (ind + 2) v
      · show sp (ind + 2) ++ ('"' :: (escapeStr k ++ ['"'])) ++ (':' :: ' '
            :: dumpVal (ind + 2) v)
          = ' ' :: (sp (ind + 1) ++ ('"' :: (escapeStr k ++ ['"'])) ++ (':' :: ' '
            :: dumpVal (ind + 2) v))
        simp [sp, List.replicate_succ]
  | ind, (k, v) :: m :: ms => by
      rw [dumpMembers]
      refine nlGood_append _ _ ?_ ?_
      · refine nlGood_nl_block _ ?_ ' '
          (sp (ind + 1) ++ ('"' :: (escapeStr k ++ ['"'])) ++ (':' :: ' '
            :: dumpVal (ind + 2) v)) ?_ (by decide)
        · refine nlGood_append _ _ (nlGood_append _ _
            (nlGood_of_no_nl _ (sp_no_nl (ind + 2))) (nlGood_string_chunk k)) ?_
          rw [nlGood_cons_ne _ _ (by decide), nlGood_cons_ne _ _ (by decide)]
          exact nlGood_dumpVal (ind + 2) v
        · show sp (ind + 2) ++ ('"' :: (escapeStr k ++ ['"'])) ++ (':' :: ' '
              :: dumpVal (ind + 2) v)
            = ' ' :: (sp (ind + 1) ++ ('"' :: (escapeStr k ++ ['"'])) ++ (':' :: ' '
              :: dumpVal (ind + 2) v))
          simp [sp, List.replicate_succ]
      · rw [nlGood_cons_ne _ _ (by decide)]
        exact nlGood_dumpMembers ind (m :: ms)
end

/-! ### Parser inversion lemmas -/

theorem skipWsJ_cons_not (c : Char) (t : Str) (h : jws c = false) :
    skipWsJ (c :: t) = c :: t := by
  simp [skipWsJ, h]

theorem skipWsJ_ws_append (w x : Str) (hw : ∀ c ∈ w, jws c = true) :
    skipWsJ (w ++ x) = skipWsJ x := by
  induction w with
  | nil => rfl
  | cons c t ih =>
      have hc : jws c = true := hw c (by simp)
      simp only [List.cons_append, skipWsJ, hc, if_true]
      exact ih (fun d hd => hw d (by simp [hd]))

theorem sp_all_ws (n : Nat) : ∀ c ∈ sp n, jws c = true := by
  intro c hc
  rw [sp] at hc
  rw [List.eq_of_mem_replicate hc]
  rfl

/-- `parseJval` at positive fuel only looks at the whitespace-normalized
input. -/
theorem parseJval_eq_of_skip (f : Nat) (cs cs' : Str) (h : skipWsJ cs = skipWsJ cs') :
    parseJval (f + 1) cs = parseJval (f + 1) cs' := by
  simp only [parseJval]
  rw [h]

theorem hexVal_hexDigitChar (k : Nat) (h : k < 16) : hexVal (hexDigitChar k) = some k := by
  interval_cases k <;> decide

theorem char_ofNat_toNat (c : Char) : Char.ofNat c.toNat = c := by
  exact Char.ofNat_toNat c

theorem parseStrBody_esc (c : Char) (acc rest : Str) :
    parseStrBody acc (escChar c ++ rest) = parseStrBody (c :: acc) rest := by
  rw [escChar]
  by_cases h1 : c = '"'
  · subst h1; simp [parseStrBody, unescChar]
  rw [if_neg h1]
  by_cases h2 : c = '\\'
  · subst h2; simp [parseStrBody, unescChar]
  rw [if_neg h2]
  by_cases h3 : c = '\n'
  · subst h3; simp [parseStrBody, unescChar]
  rw [if_neg h3]
  by_cases h4 : c = '\r'
  · subst h4; simp [parseStrBody, unescChar]
  rw [if_neg h4]
  by_cases h5 : c = '\t'
  · subst h5; simp [parseStrBody, unescChar]
  rw [if_neg h5]
  by_cases h6 : c.toNat = 8
  · have : c = Char.ofNat 8 := by rw [← char_ofNat_toNat c, h6]
    subst this; simp [parseStrBody, unescChar]
  rw [if_neg h6]
  by_cases h7 : c.toNat = 12
  · have : c = Char.ofNat 12 := by rw [← char_ofNat_toNat c, h7]
    subst this; simp [parseStrBody, unescChar]
  rw [if_neg h7]
  by_cases h8 : c.toNat < 32
  · rw [if_pos h8]
    have e1 : hexVal (hexDigitChar (c.toNat / 16)) = some (c.toNat / 16) :=
      hexVal_hexDigitChar _ (by omega)
    have e2 : hexVal (hexDigitChar (c.toNat % 16)) = some (c.toNat % 16) :=
      hexVal_hexDigitChar _ (by omega)
    have harith : ((0 * 16 + 0) * 16 + c.toNat / 16) * 16 + c.toNat % 16 = c.toNat := by
      omega
    have e0 : hexVal '0' = some 0 := by decide
    simp only [List.cons_append, List.nil_append, parseStrBody, e0, e1, e2]
    rw [show ((0 * 16 + 0) * 16 + c.toNat / 16) * 16 + c.toNat % 16 = c.toNat by omega,
      char_ofNat_toNat]
    rfl
  · rw [if_neg h8]
    rw [parseStrBody.eq_def]
    simp only [List.singleton_append]
    have h8' : ¬ c.toNat < 32 := h8
    simp [h1, h2, h8']

theorem parseStrBody_escapeStr (s : Str) : ∀ (acc rest : Str),
    parseStrBody acc (escapeStr s ++ '"' :: rest) = some (acc.reverse ++ s, rest) := by
  induction s with
  | nil => intro acc rest; simp [escapeStr, parseStrBody]
  | cons c t ih =>
      intro acc rest
      have hesc : escapeStr (c :: t) = escChar c ++ escapeStr t := by
        simp [escapeStr]
      rw [hesc, List.append_assoc, parseStrBody_esc, ih]
      simp

/-- The input directly after an integer token may not continue it: no digit,
`.`, `e` or `E`. -/
def intStop : Str → Bool
  | [] => true
  | c :: _ => !(isDigitC c || c == '.' || c == 'e' || c == 'E')

theorem grabDigits_stop (rest : Str) (h : intStop rest = true) :
    grabDigits rest = ([], rest) := by
  cases rest with
  | nil => rfl
  | cons c t =>
      simp only [intStop, Bool.not_eq_true', Bool.or_eq_false_iff] at h
      simp [grabDigits, h.1.1.1]

theorem grabDigits_run (ds : Str) (hds : ∀ c ∈ ds, isDigitC c = true) :
    ∀ rest, grabDigits rest = ([], rest) → grabDigits (ds ++ rest) = (ds, rest) := by
  induction ds with
  | nil => intro rest h; simpa using h
  | cons c t ih =>
      intro rest h
      have hc : isDigitC c = true := hds c (by simp)
      have ht := ih (fun d hd => hds d (by simp [hd])) rest h
      simp [grabDigits, hc, ht]

theorem numTerm_of_intStop (rest : Str) (h : intStop rest = true) : numTerm rest = true := by
  cases rest with
  | nil => rfl
  | cons c t =>
      simp only [intStop, Bool.not_eq_true', Bool.or_eq_false_iff] at h
      simp [numTerm, h.1.1.2, h.1.2, h.2]

theorem digit_ne_minus (c : Char) (h : isDigitC c = true) : c ≠ '-' := by
  intro hc; subst hc; exact absurd h (by decide)

theorem parseIntTok_intChars (i : Int) (rest : Str) (h : intStop rest = true) :
    parseIntTok (intChars i ++ rest) = some (i, rest) := by
  have hgrab : grabDigits (natChars i.natAbs ++ rest) = (natChars i.natAbs, rest) :=
    grabDigits_run _ (natChars_all_digits _) rest (grabDigits_stop rest h)
  rw [intChars]
  by_cases hi : i < 0
  · rw [if_pos hi]
    have hstep : parseIntTok ('-' :: (natChars i.natAbs ++ rest))
        = (match grabDigits (natChars i.natAbs ++ rest) with
           | ([], _) => none
           | (ds, r) => if numTerm r then some (-(digitsVal ds : Int), r) else none) := rfl
    rw [show ('-' :: natChars i.natAbs) ++ rest = '-' :: (natChars i.natAbs ++ rest) from rfl,
      hstep, hgrab]
    have hne := natChars_ne_nil i.natAbs
    cases hnc : natChars i.natAbs with
    | nil => exact absurd hnc hne
    | cons d t =>
        simp only [numTerm_of_intStop rest h, if_true]
        have hdv : digitsVal (d :: t) = i.natAbs := by rw [← hnc, digitsVal_natChars]
        rw [hdv]
        simp only [Option.some.injEq, Prod.mk.injEq, and_true]
        omega
  · rw [if_neg hi]
    obtain ⟨d, t, hnc⟩ : ∃ d t, natChars i.natAbs = d :: t := by
      cases hnc : natChars i.natAbs with
      | nil => exact absurd hnc (natChars_ne_nil _)
      | cons d t => exact ⟨d, t, rfl⟩
    have hd : isDigitC d = true := natChars_all_digits i.natAbs d (by rw [hnc]; simp)
    have hdm : d ≠ '-' := digit_ne_minus d hd
    rw [hnc] at hgrab
    rw [hnc, show (d :: t) ++ rest = d :: (t ++ rest) from rfl]
    rw [parseIntTok.eq_def]
    split
    · rename_i cs heq
      injection heq with h1 _
      exact absurd h1 hdm
    · rw [show (d :: t) ++ rest = d :: (t ++ rest) from rfl] at hgrab
      rw [hgrab]
      simp only [numTerm_of_intStop rest h, if_true]
      have hdv : digitsVal (d :: t) = i.natAbs := by rw [← hnc, digitsVal_natChars]
      rw [hdv]
      simp only [Option.some.injEq, Prod.mk.injEq, and_true]
      omega

theorem digitChar_props (k : Nat) (h : k < 10) :
    jws (digitChar k) = false ∧ digitChar k ≠ ']' ∧ digitChar k ≠ '}'
    ∧ digitChar k ≠ '-' ∧ digitChar k ≠ 'n' ∧ digitChar k ≠ '"'
    ∧ digitChar k ≠ '[' ∧ digitChar k ≠ '{' ∧ isDigitC (digitChar k) = true := by
  interval_cases k <;> exact ⟨rfl, by decide, by decide, by decide, by decide, by decide,
    by decide, by decide, rfl⟩

theorem natChars_head (n : Nat) : ∃ k t, k < 10 ∧ natChars n = digitChar k :: t := by
  induction n using Nat.strong_induction_on with
  | _ n ih =>
      rw [natChars_eq]
      split
      · exact ⟨n, [], by omega, rfl⟩
      · obtain ⟨k, t, hk, heq⟩ := ih (n / 10) (Nat.div_lt_self (by omega) (by omega))
        exact ⟨k, t ++ [digitChar (n % 10)], hk, by rw [heq]; rfl⟩

/-- Serialized values start with a character that is not whitespace and closes
no bracket, so the parser's whitespace skip and bracket checks pass over them
unchanged. -/
theorem dumpVal_head (ind : Nat) (j : Jval) :
    ∃ c t, dumpVal ind j = c :: t ∧ jws c = false ∧ c ≠ ']' ∧ c ≠ '}' := by
  cases j with
  | jnull => exact ⟨'n', _, rfl, rfl, by decide, by decide⟩
  | jint i =>
      rw [show dumpVal ind (.jint i) = intChars i from rfl, intChars]
      by_cases hi : i < 0
      · rw [if_pos hi]
        exact ⟨'-', _, rfl, rfl, by decide, by decide⟩
      · rw [if_neg hi]
        obtain ⟨k, t, hk, heq⟩ := natChars_head i.natAbs
        obtain ⟨p1, p2, p3, _⟩ := digitChar_props k hk
        exact ⟨digitChar k, t, heq, p1, p2, p3⟩
  | jstr s => exact ⟨'"', _, rfl, rfl, by decide, by decide⟩
  | jarr items =>
      cases items with
      | nil => exact ⟨'[', _, rfl, rfl, by decide, by decide⟩
      | cons v vs => exact ⟨'[', _, rfl, rfl, by decide, by decide⟩
  | jobj members =>
      cases members with
      | nil => exact ⟨'{', _, rfl, rfl, by decide, by decide⟩
      | cons m ms => exact ⟨'{', _, rfl, rfl, by decide, by decide⟩

/-- An input headed by a sign or digit reaches the parser's number branch. -/
theorem parseJval_int_entry (f : Nat) (c : Char) (t : Str)
    (hws : jws c = false) (hn : c ≠ 'n') (hq : c ≠ '"') (hbk : c ≠ '[') (hbr : c ≠ '{')
    (hg : (c == '-' || isDigitC c) = true) :
    parseJval (f + 1) (c :: t)
      = (match parseIntTok (c :: t) with
         | some (n, r) => some (.jint n, r)
         | none => none) := by
  simp only [parseJval]
  rw [skipWsJ_cons_not c t hws]
  simp [hn, hq, hbk, hbr, hg]

theorem dumpItems_cons_eq (ind : Nat) (v : Jval) (vs : List Jval) :
    dumpItems ind (v :: vs)
      = ('\n' :: (sp (ind + 2) ++ dumpVal (ind + 2) v))
        ++ (match vs with
            | [] => []
            | w :: ws => ',' :: dumpItems ind (w :: ws)) := by
  cases vs with
  | nil => simp [dumpItems]
  | cons w ws => simp [dumpItems]

theorem dumpMembers_cons_eq (ind : Nat) (k : Str) (v : Jval) (ms : List (Str × Jval)) :
    dumpMembers ind ((k, v) :: ms)
      = ('\n' :: (sp (ind + 2) ++ ('"' :: (escapeStr k ++ ['"'])) ++ (':' :: ' '
          :: dumpVal (ind + 2) v)))
        ++ (match ms with
            | [] => []
            | m :: ms' => ',' :: dumpMembers ind (m :: ms')) := by
  cases ms with
  | nil => simp [dumpMembers]
  | cons m ms' => simp [dumpMembers]

theorem skipWsJ_cons_ws (c : Char) (t : Str) (h : jws c = true) :
    skipWsJ (c :: t) = skipWsJ t := by
  simp [skipWsJ, h]

theorem skipWsJ_nl_sp_append (n : Nat) (x : Str) :
    skipWsJ ('\n' :: (sp n ++ x)) = skipWsJ x := by
  rw [skipWsJ_cons_ws '\n' _ rfl, skipWsJ_ws_append _ _ (sp_all_ws n)]

theorem parseJval_skip_congr (f : Nat) (cs cs' : Str) (h : skipWsJ cs = skipWsJ cs') :
    parseJval f cs = parseJval f cs' := by
  cases f with
  | zero => rfl
  | succ f => exact parseJval_eq_of_skip f cs cs' h

theorem intStop_nl (x : Str) : intStop ('\n' :: x) = true := rfl

theorem intStop_comma (x : Str) : intStop (',' :: x) = true := rfl

theorem parseJval_arr_step (f : Nat) (cs R : Str) (hskip : skipWsJ cs = '[' :: R) :
    parseJval (f + 1) cs
      = (match skipWsJ R with
         | ']' :: rest2 => some (Jval.jarr [], rest2)
         | _ =>
             (match parseItems f R with
              | some (vs, rest2) => some (Jval.jarr vs, rest2)
              | none => none)) := by
  simp only [parseJval, hskip]

theorem parseJval_obj_step (f : Nat) (cs R : Str) (hskip : skipWsJ cs = '{' :: R) :
    parseJval (f + 1) cs
      = (match skipWsJ R with
         | '}' :: rest2 => some (Jval.jobj [], rest2)
         | _ =>
             (match parseMembers f R with
              | some (ms, rest2) => some (Jval.jobj ms, rest2)
              | none => none)) := by
  simp only [parseJval, hskip]

theorem parseItems_step (f : Nat) (cs r : Str) (v : Jval)
    (hp : parseJval f cs = some (v, r)) :
    parseItems (f + 1) cs
      = (match skipWsJ r with
         | ',' :: rest2 =>
             (match parseItems f rest2 with
              | some (vs, rest3) => some (v :: vs, rest3)
              | none => none)
         | ']' :: rest2 => some ([v], rest2)
         | _ => none) := by
  simp only [parseItems, hp]

theorem parseMembers_step (f : Nat) (cs r2 r3 : Str) (k : Str) (v : Jval)
    (hskip : skipWsJ cs = '"' :: (escapeStr k ++ '"' :: (':' :: ' ' :: r2)))
    (hv : parseJval f (' ' :: r2) = some (v, r3)) :
    parseMembers (f + 1) cs
      = (match skipWsJ r3 with
         | ',' :: rest4 =>
             (match parseMembers f rest4 with
              | some (ms, rest5) => some ((k, v) :: ms, rest5)
              | none => none)
         | '}' :: rest4 => some ([(k, v)], rest4)
         | _ => none) := by
  have hcol : skipWsJ (':' :: ' ' :: r2) = ':' :: ' ' :: r2 := skipWsJ_cons_not _ _ rfl
  simp only [parseMembers, hskip, parseStrBody_escapeStr, List.reverse_nil, List.nil_append,
    hcol, hv]

theorem dumpVal_arr_cons_len (ind : Nat) (v : Jval) (vs : List Jval) :
    (dumpVal ind (.jarr (v :: vs))).length = (dumpItems ind (v :: vs)).length + (ind + 3) := by
  rw [show dumpVal ind (.jarr (v :: vs))
    = '[' :: (dumpItems ind (v :: vs) ++ ('\n' :: (sp ind ++ [']']))) from rfl]
  simp only [List.length_cons, List.length_append, List.length_nil, sp, List.length_replicate]
  omega

theorem dumpVal_obj_cons_len (ind : Nat) (k : Str) (v : Jval) (ms : List (Str × Jval)) :
    (dumpVal ind (.jobj ((k, v) :: ms))).length
      = (dumpMembers ind ((k, v) :: ms)).length + (ind + 3) := by
  rw [show dumpVal ind (.jobj ((k, v) :: ms))
    = '{' :: (dumpMembers ind ((k, v) :: ms) ++ ('\n' :: (sp ind ++ ['}']))) from rfl]
  simp only [List.length_cons, List.length_append, List.length_nil, sp, List.length_replicate]
  omega

theorem dumpItems_one_len (ind : Nat) (v : Jval) :
    (dumpItems ind [v]).length = ind + 3 + (dumpVal (ind + 2) v).length := by
  rw [show dumpItems ind [v] = '\n' :: (sp (ind + 2) ++ dumpVal (ind + 2) v) from rfl]
  simp only [List.length_cons, List.length_append, sp, List.length_replicate]
  omega

theorem dumpItems_two_len (ind : Nat) (v w : Jval) (ws : List Jval) :
    (dumpItems ind (v :: w :: ws)).length
      = ind + 4 + (dumpVal (ind + 2) v).length + (dumpItems ind (w :: ws)).length := by
  rw [show dumpItems ind (v :: w :: ws)
    = ('\n' :: (sp (ind + 2) ++ dumpVal (ind + 2) v)) ++ (',' :: dumpItems ind (w :: ws))
    from rfl]
  simp only [List.length_cons, List.length_append, sp, List.length_replicate]
  omega

theorem dumpMembers_one_len (ind : Nat) (k : Str) (v : Jval) :
    (dumpMembers ind [(k, v)]).length
      = ind + 7 + (escapeStr k).length + (dumpVal (ind + 2) v).length := by
  rw [show dumpMembers ind [(k, v)]
    = '\n' :: (sp (ind + 2) ++ ('"' :: (escapeStr k ++ ['"'])) ++ (':' :: ' '
        :: dumpVal (ind + 2) v)) from rfl]
  simp only [List.length_cons, List.length_append, List.length_nil, sp, List.length_replicate]
  omega

theorem dumpMembers_two_len (ind : Nat) (k : Str) (v : Jval) (m : Str × Jval)
    (ms : List (Str × Jval)) :
    (dumpMembers ind ((k, v) :: m :: ms)).length
      = ind + 8 + (escapeStr k).length + (dumpVal (ind + 2) v).length
        + (dumpMembers ind (m :: ms)).length := by
  rw [show dumpMembers ind ((k, v) :: m :: ms)
    = ('\n' :: (sp (ind + 2) ++ ('"' :: (escapeStr k ++ ['"'])) ++ (':' :: ' '
        :: dumpVal (ind + 2) v))) ++ (',' :: dumpMembers ind (m :: ms)) by
      cases m; rfl]
  simp only [List.length_cons, List.length_append, List.length_nil, sp, List.length_replicate]
  omega

mutual
/-- Parsing a serialized value consumes exactly it: the `json.loads` model
inverts the `json.dumps` model, at any indentation level, for any remainder
that cannot extend a number token. -/
theorem rt_value : ∀ (j : Jval) (ind fuel : Nat) (rest : Str),
    (dumpVal ind j).length < fuel → intStop rest = true →
    parseJval fuel (dumpVal ind j ++ rest) = some (j, rest)
  | .jnull, ind, fuel, rest, hf, _ => by
      cases fuel with
      | zero => exact absurd hf (Nat.not_lt_zero _)
      | succ f =>
          show parseJval (f + 1) ("null".toList ++ rest) = some (.jnull, rest)
          rfl
  | .jint i, ind, fuel, rest, hf, hr => by
      cases fuel with
      | zero => exact absurd hf (Nat.not_lt_zero _)
      | succ f =>
          show parseJval (f + 1) (intChars i ++ rest) = some (.jint i, rest)
          by_cases hi : i < 0
          · have hic : intChars i = '-' :: natChars i.natAbs := by rw [intChars, if_pos hi]
            rw [hic,
              show ('-' :: natChars i.natAbs) ++ rest
                = '-' :: (natChars i.natAbs ++ rest) from rfl,
              parseJval_int_entry f _ _ (by decide) (by decide) (by decide) (by decide)
                (by decide) (by decide),
              show '-' :: (natChars i.natAbs ++ rest) = intChars i ++ rest by rw [hic]; rfl,
              parseIntTok_intChars i rest hr]
          · have hic : intChars i = natChars i.natAbs := by rw [intChars, if_neg hi]
            obtain ⟨k, t, hk, heq⟩ := natChars_head i.natAbs
            obtain ⟨p1, _, _, _, p5, p6, p7, p8, p9⟩ := digitChar_props k hk
            rw [hic, heq,
              show (digitChar k :: t) ++ rest = digitChar k :: (t ++ rest) from rfl,
              parseJval_int_entry f _ _ p1 p5 p6 p7 p8 (by simp [p9]),
              show digitChar k :: (t ++ rest) = intChars i ++ rest by rw [hic, heq]; rfl,
              parseIntTok_intChars i rest hr]
  | .jstr s, ind, fuel, rest, hf, _ => by
      cases fuel with
      | zero => exact absurd hf (Nat.not_lt_zero _)
      | succ f =>
          show parseJval (f + 1) (('"' :: (escapeStr s ++ ['"'])) ++ rest)
            = some (.jstr s, rest)
          rw [show ('"' :: (escapeStr s ++ ['"'])) ++ rest
            = '"' :: (escapeStr s ++ '"' :: rest) by simp]
          have hstep : parseJval (f + 1) ('"' :: (escapeStr s ++ '"' :: rest))
              = (match parseStrBody [] (escapeStr s ++ '"' :: rest) with
                 | some (s', r1) => some (Jval.jstr s', r1)
                 | none => none) := rfl
          rw [hstep, parseStrBody_escapeStr s [] rest]
          simp
  | .jarr [], ind, fuel, rest, hf, _ => by
      cases fuel with
      | zero => exact absurd hf (Nat.not_lt_zero _)
      | succ f =>
          show parseJval (f + 1) ("[]".toList ++ rest) = some (.jarr [], rest)
          rfl
  | .jarr (v :: vs), ind, fuel, rest, hf, hr => by
      cases fuel with
      | zero => exact absurd hf (Nat.not_lt_zero _)
      | succ f =>
          obtain ⟨c0, t0, hv0, hw0, hbr0, hbc0⟩ := dumpVal_head (ind + 2) v
          have hshape : dumpVal ind (.jarr (v :: vs)) ++ rest
              = '[' :: (dumpItems ind (v :: vs) ++ ('\n' :: (sp ind ++ ']' :: rest))) := by
            rw [show dumpVal ind (.jarr (v :: vs))
              = '[' :: (dumpItems ind (v :: vs) ++ ('\n' :: (sp ind ++ [']']))) from rfl]
            simp
          rw [hshape, parseJval_arr_step f _ _ (skipWsJ_cons_not '[' _ rfl)]
          obtain ⟨TAIL, hT⟩ : ∃ TAIL, dumpItems ind (v :: vs)
              = ('\n' :: (sp (ind + 2) ++ dumpVal (ind + 2) v)) ++ TAIL :=
            ⟨_, dumpItems_cons_eq ind v vs⟩
          have hskipR : skipWsJ (dumpItems ind (v :: vs)
              ++ ('\n' :: (sp ind ++ ']' :: rest)))
              = c0 :: (t0 ++ (TAIL ++ ('\n' :: (sp ind ++ ']' :: rest)))) := by
            rw [hT]
            rw [show (('\n' :: (sp (ind + 2) ++ dumpVal (ind + 2) v)) ++ TAIL)
                ++ ('\n' :: (sp ind ++ ']' :: rest))
              = '\n' :: (sp (ind + 2) ++ (dumpVal (ind + 2) v
                  ++ (TAIL ++ ('\n' :: (sp ind ++ ']' :: rest))))) by simp]
            rw [skipWsJ_nl_sp_append, hv0]
            simp only [List.cons_append]
            exact skipWsJ_cons_not c0 _ hw0
          have hlen := dumpVal_arr_cons_len ind v vs
          have hitems : parseItems f (dumpItems ind (v :: vs)
              ++ ('\n' :: (sp ind ++ ']' :: rest))) = some (v :: vs, rest) :=
            rt_items v vs ind f rest (by omega)
          rw [hitems]
          split
          · rename_i rest2 heq
            rw [hskipR] at heq
            injection heq with h1 _
            exact absurd h1 hbr0
          · rfl
  | .jobj [], ind, fuel, rest, hf, _ => by
      cases fuel with
      | zero => exact absurd hf (Nat.not_lt_zero _)
      | succ f =>
          show parseJval (f + 1) (('{' :: ['}'] : Str) ++ rest) = some (.jobj [], rest)
          rfl
  | .jobj ((k, v) :: ms), ind, fuel, rest, hf, _ => by
      cases fuel with
      | zero => exact absurd hf (Nat.not_lt_zero _)
      | succ f =>
          have hshape : dumpVal ind (.jobj ((k, v) :: ms)) ++ rest
              = '{' :: (dumpMembers ind ((k, v) :: ms)
                  ++ ('\n' :: (sp ind ++ '}' :: rest))) := by
            rw [show dumpVal ind (.jobj ((k, v) :: ms))
              = '{' :: (dumpMembers ind ((k, v) :: ms) ++ ('\n' :: (sp ind ++ ['}'])))
              from rfl]
            simp
          rw [hshape, parseJval_obj_step f _ _ (skipWsJ_cons_not '{' _ rfl)]
          obtain ⟨TAIL, hT⟩ : ∃ TAIL, dumpMembers ind ((k, v) :: ms)
              = ('\n' :: (sp (ind + 2) ++ ('"' :: (escapeStr k ++ ['"'])) ++ (':' :: ' '
                  :: dumpVal (ind + 2) v))) ++ TAIL :=
            ⟨_, dumpMembers_cons_eq ind k v ms⟩
          have hskipR : skipWsJ (dumpMembers ind ((k, v) :: ms)
              ++ ('\n' :: (sp ind ++ '}' :: rest)))
              = '"' :: (escapeStr k ++ '"' :: (':' :: ' ' :: (dumpVal (ind + 2) v
                  ++ (TAIL ++ ('\n' :: (sp ind ++ '}' :: rest)))))) := by
            rw [hT]
            rw [show (('\n' :: (sp (ind + 2) ++ ('"' :: (escapeStr k ++ ['"'])) ++ (':' :: ' '
                  :: dumpVal (ind + 2) v))) ++ TAIL)
                ++ ('\n' :: (sp ind ++ '}' :: rest))
              = '\n' :: (sp (ind + 2) ++ ('"' :: (escapeStr k ++ '"' :: (':' :: ' '
                  :: (dumpVal (ind + 2) v
                    ++ (TAIL ++ ('\n' :: (sp ind ++ '}' :: rest)))))))) by simp]
            rw [skipWsJ_nl_sp_append, skipWsJ_cons_not '"' _ rfl]
          have hlen := dumpVal_obj_cons_len ind k v ms
          have hmembers : parseMembers f (dumpMembers ind ((k, v) :: ms)
              ++ ('\n' :: (sp ind ++ '}' :: rest))) = some ((k, v) :: ms, rest) :=
            rt_members k v ms ind f rest (by omega)
          rw [hmembers]
          split
          · rename_i rest2 heq
            rw [hskipR] at heq
            injection heq with h1 _
            exact absurd h1 (by decide)
          · rfl
termination_by j ind fuel rest hf hr => sizeOf j
decreasing_by
  all_goals
    (subst_vars
     <;> simp only [List.cons.sizeOf_spec, List.nil.sizeOf_spec, Prod.mk.sizeOf_spec,
        Jval.jarr.sizeOf_spec, Jval.jobj.sizeOf_spec]
     <;> omega)
/-- Parsing the serialized items of a nonempty array, followed by the
newline-indented closing bracket, recovers exactly those items. -/
theorem rt_items : ∀ (v : Jval) (vs : List Jval) (ind fuel : Nat) (rest : Str),
    (dumpItems ind (v :: vs)).length < fuel →
    parseItems fuel (dumpItems ind (v :: vs) ++ ('\n' :: (sp ind ++ ']' :: rest)))
      = some (v :: vs, rest)
  | v, vs, ind, fuel, rest, hf => by
      cases fuel with
      | zero => exact absurd hf (Nat.not_lt_zero _)
      | succ f =>
          cases vs with
          | nil =>
              have hlen := dumpItems_one_len ind v
              have hin : dumpItems ind [v] ++ ('\n' :: (sp ind ++ ']' :: rest))
                  = '\n' :: (sp (ind + 2) ++ (dumpVal (ind + 2) v
                      ++ ('\n' :: (sp ind ++ ']' :: rest)))) := by
                rw [show dumpItems ind [v]
                  = '\n' :: (sp (ind + 2) ++ dumpVal (ind + 2) v) from rfl]
                simp
              have hpv : parseJval f (dumpItems ind [v] ++ ('\n' :: (sp ind ++ ']' :: rest)))
                  = some (v, '\n' :: (sp ind ++ ']' :: rest)) := by
                rw [hin, parseJval_skip_congr f _ (dumpVal (ind + 2) v
                    ++ ('\n' :: (sp ind ++ ']' :: rest))) (skipWsJ_nl_sp_append _ _)]
                exact rt_value v (ind + 2) f _ (by omega) (intStop_nl _)
              have hsk : skipWsJ ('\n' :: (sp ind ++ ']' :: rest)) = ']' :: rest := by
                rw [skipWsJ_nl_sp_append, skipWsJ_cons_not ']' _ rfl]
              rw [parseItems_step f _ _ v hpv]
              simp only [hsk]
          | cons w ws =>
              have hlen := dumpItems_two_len ind v w ws
              have hin : dumpItems ind (v :: w :: ws) ++ ('\n' :: (sp ind ++ ']' :: rest))
                  = '\n' :: (sp (ind + 2) ++ (dumpVal (ind + 2) v
                      ++ (',' :: (dumpItems ind (w :: ws)
                        ++ ('\n' :: (sp ind ++ ']' :: rest)))))) := by
                rw [show dumpItems ind (v :: w :: ws)
                  = ('\n' :: (sp (ind + 2) ++ dumpVal (ind + 2) v))
                    ++ (',' :: dumpItems ind (w :: ws)) from rfl]
                simp
              have hpv : parseJval f (dumpItems ind (v :: w :: ws)
                  ++ ('\n' :: (sp ind ++ ']' :: rest)))
                  = some (v, ',' :: (dumpItems ind (w :: ws)
                      ++ ('\n' :: (sp ind ++ ']' :: rest)))) := by
                rw [hin, parseJval_skip_congr f _ (dumpVal (ind + 2) v
                    ++ (',' :: (dumpItems ind (w :: ws)
                      ++ ('\n' :: (sp ind ++ ']' :: rest)))))
                    (skipWsJ_nl_sp_append _ _)]
                exact rt_value v (ind + 2) f _ (by omega) (intStop_comma _)
              have hrec : parseItems f (dumpItems ind (w :: ws)
                  ++ ('\n' :: (sp ind ++ ']' :: rest))) = some (w :: ws, rest) :=
                rt_items w ws ind f rest (by omega)
              have hsk : skipWsJ (',' :: (dumpItems ind (w :: ws)
                  ++ ('\n' :: (sp ind ++ ']' :: rest))))
                  = ',' :: (dumpItems ind (w :: ws)
                    ++ ('\n' :: (sp ind ++ ']' :: rest))) :=
                skipWsJ_cons_not _ _ rfl
              rw [parseItems_step f _ _ v hpv]
              simp only [hsk, hrec]
termination_by v vs ind fuel rest hf => sizeOf v + sizeOf vs
decreasing_by
  all_goals
    (subst_vars
     <;> simp only [List.cons.sizeOf_spec, List.nil.sizeOf_spec, Prod.mk.sizeOf_spec,
        Jval.jarr.sizeOf_spec, Jval.jobj.sizeOf_spec]
     <;> omega)
/-- Parsing the serialized members of a nonempty object, followed by the
newline-indented closing brace, recovers exactly those members. -/
theorem rt_members : ∀ (k : Str) (v : Jval) (ms : List (Str × Jval)) (ind fuel : Nat)
    (rest : Str),
    (dumpMembers ind ((k, v) :: ms)).length < fuel →
    parseMembers fuel (dumpMembers ind ((k, v) :: ms) ++ ('\n' :: (sp ind ++ '}' :: rest)))
      = some ((k, v) :: ms, rest)
  | k, v, [], ind, fuel, rest, hf => by
      cases fuel with
      | zero => exact absurd hf (Nat.not_lt_zero _)
      | succ f =>
          have hlen := dumpMembers_one_len ind k v
          have hskipR : skipWsJ (dumpMembers ind [(k, v)]
              ++ ('\n' :: (sp ind ++ '}' :: rest)))
              = '"' :: (escapeStr k ++ '"' :: (':' :: ' ' :: (dumpVal (ind + 2) v
                  ++ ('\n' :: (sp ind ++ '}' :: rest))))) := by
            rw [show dumpMembers ind [(k, v)]
              = '\n' :: (sp (ind + 2) ++ ('"' :: (escapeStr k ++ ['"'])) ++ (':' :: ' '
                  :: dumpVal (ind + 2) v)) from rfl]
            rw [show ('\n' :: (sp (ind + 2) ++ ('"' :: (escapeStr k ++ ['"']))
                  ++ (':' :: ' ' :: dumpVal (ind + 2) v)))
                ++ ('\n' :: (sp ind ++ '}' :: rest))
              = '\n' :: (sp (ind + 2) ++ ('"' :: (escapeStr k ++ '"' :: (':' :: ' '
                  :: (dumpVal (ind + 2) v ++ ('\n' :: (sp ind ++ '}' :: rest)))))))
              by simp]
            rw [skipWsJ_nl_sp_append, skipWsJ_cons_not '\"' _ rfl]
          have hv : parseJval f (' ' :: (dumpVal (ind + 2) v
              ++ ('\n' :: (sp ind ++ '}' :: rest))))
              = some (v, '\n' :: (sp ind ++ '}' :: rest)) := by
            rw [parseJval_skip_congr f _ (dumpVal (ind + 2) v
                ++ ('\n' :: (sp ind ++ '}' :: rest))) (skipWsJ_cons_ws ' ' _ rfl)]
            exact rt_value v (ind + 2) f _ (by omega) (intStop_nl _)
          have hsk : skipWsJ ('\n' :: (sp ind ++ '}' :: rest)) = '}' :: rest := by
            rw [skipWsJ_nl_sp_append, skipWsJ_cons_not '}' _ rfl]
          rw [parseMembers_step f _ _ _ k v hskipR hv]
          simp only [hsk]
  | k, v, (k2, v2) :: ms', ind, fuel, rest, hf => by
      cases fuel with
      | zero => exact absurd hf (Nat.not_lt_zero _)
      | succ f =>
          have hlen := dumpMembers_two_len ind k v (k2, v2) ms'
          have hskipR : skipWsJ (dumpMembers ind ((k, v) :: (k2, v2) :: ms')
              ++ ('\n' :: (sp ind ++ '}' :: rest)))
              = '"' :: (escapeStr k ++ '"' :: (':' :: ' ' :: (dumpVal (ind + 2) v
                  ++ (',' :: (dumpMembers ind ((k2, v2) :: ms')
                    ++ ('\n' :: (sp ind ++ '}' :: rest))))))) := by
            rw [show dumpMembers ind ((k, v) :: (k2, v2) :: ms')
              = ('\n' :: (sp (ind + 2) ++ ('"' :: (escapeStr k ++ ['"'])) ++ (':' :: ' '
                  :: dumpVal (ind + 2) v)))
                ++ (',' :: dumpMembers ind ((k2, v2) :: ms')) from rfl]
            rw [show (('\n' :: (sp (ind + 2) ++ ('"' :: (escapeStr k ++ ['"']))
                    ++ (':' :: ' ' :: dumpVal (ind + 2) v)))
                  ++ (',' :: dumpMembers ind ((k2, v2) :: ms')))
                ++ ('\n' :: (sp ind ++ '}' :: rest))
              = '\n' :: (sp (ind + 2) ++ ('"' :: (escapeStr k ++ '"' :: (':' :: ' '
                  :: (dumpVal (ind + 2) v
                    ++ (',' :: (dumpMembers ind ((k2, v2) :: ms')
                      ++ ('\n' :: (sp ind ++ '}' :: rest)))))))))
              by simp]
            rw [skipWsJ_nl_sp_append, skipWsJ_cons_not '\"' _ rfl]
          have hv : parseJval f (' ' :: (dumpVal (ind + 2) v
              ++ (',' :: (dumpMembers ind ((k2, v2) :: ms')
                ++ ('\n' :: (sp ind ++ '}' :: rest))))))
              = some (v, ',' :: (dumpMembers ind ((k2, v2) :: ms')
                  ++ ('\n' :: (sp ind ++ '}' :: rest)))) := by
            rw [parseJval_skip_congr f _ (dumpVal (ind + 2) v
                ++ (',' :: (dumpMembers ind ((k2, v2) :: ms')
                  ++ ('\n' :: (sp ind ++ '}' :: rest))))) (skipWsJ_cons_ws ' ' _ rfl)]
            exact rt_value v (ind + 2) f _ (by omega) (intStop_comma _)
          have hrec : parseMembers f (dumpMembers ind ((k2, v2) :: ms')
              ++ ('\n' :: (sp ind ++ '}' :: rest))) = some ((k2, v2) :: ms', rest) :=
            rt_members k2 v2 ms' ind f rest (by omega)
          have hsk : skipWsJ (',' :: (dumpMembers ind ((k2, v2) :: ms')
              ++ ('\n' :: (sp ind ++ '}' :: rest))))
              = ',' :: (dumpMembers ind ((k2, v2) :: ms')
                ++ ('\n' :: (sp ind ++ '}' :: rest))) :=
            skipWsJ_cons_not _ _ rfl
          rw [parseMembers_step f _ _ _ k v hskipR hv]
          simp only [hsk, hrec]
termination_by k v ms ind fuel rest hf => sizeOf v + sizeOf ms
decreasing_by
  all_goals
    (subst_vars
     <;> simp only [List.cons.sizeOf_spec, List.nil.sizeOf_spec, Prod.mk.sizeOf_spec,
        Jval.jarr.sizeOf_spec, Jval.jobj.sizeOf_spec]
     <;> omega)
end

/-- `json.loads` inverts `json.dumps` on any serialized value: the codec
round-trips at the JSON level. -/
theorem json_loads_dumpVal (j : Jval) : json_loads (dumpVal 0 j) = some j := by
  rw [json_loads]
  have h := rt_value j 0 ((dumpVal 0 j).length + 1) [] (by omega) rfl
  rw [List.append_nil] at h
  rw [h]
  rfl

theorem mapM_jstr_loop (l : List Str) : ∀ acc : List Str,
    List.mapM.loop (fun item => match item with
      | Jval.jstr s => some s
      | _ => none) (l.map Jval.jstr) acc = some (acc.reverse ++ l) := by
  induction l with
  | nil => intro acc; simp [List.mapM.loop]
  | cons c t ih => intro acc; simp [List.mapM.loop, ih]

theorem mapM_jstr (l : List Str) :
    List.mapM (fun item => match item with
      | Jval.jstr s => some s
      | _ => none) (l.map Jval.jstr) = some l := by
  simpa using mapM_jstr_loop l []

/-- An iteration dictionary deserializes back to the iteration it was built
from. -/
theorem iteration_from_to (it : Iteration) :
    iteration_from_dict (iteration_to_dict it) = some it := by
  obtain ⟨n, st, chs, fb, ci, sha, ts⟩ := it
  cases fb <;> cases ci <;> cases sha <;>
    simp +decide [iteration_from_dict, iteration_to_dict, jGet, jGetOptStr, optStrJ,
      IterationStatus.ofValue_value, mapM_jstr, mapM_jstr_loop]

theorem mapM_iteration_loop (l : List Iteration) : ∀ acc : List Iteration,
    List.mapM.loop iteration_from_dict (l.map iteration_to_dict) acc
      = some (acc.reverse ++ l) := by
  induction l with
  | nil => intro acc; simp [List.mapM.loop]
  | cons it t ih => intro acc; simp [List.mapM.loop, iteration_from_to, ih]

theorem mapM_iteration_from_to (l : List Iteration) :
    List.mapM iteration_from_dict (l.map iteration_to_dict) = some l := by
  simpa using mapM_iteration_loop l []

/-- `AgentState.from_dict` inverts `AgentState.to_dict`. -/
theorem from_to_dict (s : AgentState) : from_dict (to_dict s) = some s := by
  obtain ⟨n, prn, bn, its, rh, ca, ua⟩ := s
  cases prn <;>
    simp +decide [from_dict, to_dict, jGet, optIntJ, mapM_iteration_from_to,
      mapM_iteration_loop]

/-! ### Locating the fenced block in a merged body -/

/-- No nonempty suffix of the serialized JSON can start a match of the
end-of-group pattern `'\n' :: END`: a match inside the JSON is excluded
because every newline there is followed by an indentation space or a closing
bracket, and a match straddling the boundary would need a newline inside the
end marker. -/
theorem no_suffix_match_end (J : Str) (hJ : nlGood J = true) :
    ∀ x1 x2, J = x1 ++ x2 → x2 ≠ [] →
      startsWithL ('\n' :: STATE_MARKER_END)
        (x2 ++ ('\n' :: STATE_MARKER_END) ++ []) = false := by
  intro x1 x2 hsplit hne
  by_contra hT
  rw [Bool.not_eq_false] at hT
  have hcont : containsSubL ('\n' :: STATE_MARKER_END) J = false := by
    rw [show STATE_MARKER_END = 'P' :: "ATCHER_STATE_END -->".toList from rfl]
    exact nlGood_no_nl_pattern J hJ 'P' _ (by decide)
  rw [List.append_assoc] at hT
  rcases startsWithL_append_cases _ x2 _ hT with ⟨t, ht⟩ | ⟨w, hw, hwb⟩
  · have : containsSubL ('\n' :: STATE_MARKER_END) J = true :=
      (containsSubL_iff _ _).mpr ⟨x1, t, by rw [hsplit, ht, List.append_assoc]⟩
    simp [this] at hcont
  · cases w with
    | nil =>
        have : containsSubL ('\n' :: STATE_MARKER_END) J = true :=
          (containsSubL_iff _ _).mpr ⟨x1, [], by simp [hsplit, hw]⟩
        simp [this] at hcont
    | cons d w' =>
        have hd : d = '\n' := by
          obtain ⟨v, hv⟩ := (startsWithL_iff _ _).mp hwb
          simp only [List.append_nil, List.cons_append] at hv
          injection hv with h1 _
          exact h1.symm
        cases x2 with
        | nil => exact hne rfl
        | cons e x2' =>
            have hw2 : (e :: x2') ++ d :: w' = '\n' :: STATE_MARKER_END := hw.symm
            rw [List.cons_append] at hw2
            injection hw2 with _ htail
            have hmem : d ∈ STATE_MARKER_END := by
              rw [← htail]
              exact List.mem_append_right _ (by simp)
            rw [hd] at hmem
            exact absurd hmem (by decide)

/-- Decoding a freshly appended block: the group scanner finds exactly the
serialized JSON when the preceding text contains no start marker. -/
theorem findStateGroup_fresh (T : Str) (R : AgentState)
    (h : containsSubL STATE_MARKER_START T = false) :
    findStateGroup (T ++ '\n' :: '\n' :: format_state_for_pr R)
      = some (state_json R) := by
  have hJ : nlGood (state_json R) = true := nlGood_dumpVal 0 (to_dict R)
  have hx : T ++ '\n' :: '\n' :: format_state_for_pr R
      = (T ++ ['\n', '\n']) ++ format_state_for_pr R := by simp
  have hcontx : containsSubL STATE_MARKER_START (T ++ ['\n', '\n']) = false :=
    containsSubL_append_false _ _ _ (by decide) h (by decide)
  have hlast : (T ++ ['\n', '\n']).getLast? = some '\n' := by
    rw [List.getLast?_append_of_ne_nil _ (by simp)]
    rfl
  rw [hx, findStateGroup_skip _ _
    (no_suffix_match_of_last_nl STATE_MARKER_START _ _ (by decide) hcontx hlast)]
  have hsplit : splitFirstSub ('\n' :: STATE_MARKER_END)
      (state_json R ++ '\n' :: STATE_MARKER_END) = some (state_json R, []) := by
    have := splitFirstSub_skip ('\n' :: STATE_MARKER_END) (state_json R) [] (by simp)
      (no_suffix_match_end (state_json R) hJ)
    simpa using this
  rw [show format_state_for_pr R
    = STATE_MARKER_START ++ ('\n' :: (state_json R ++ '\n' :: STATE_MARKER_END)) from rfl]
  have hstep : findStateGroup (STATE_MARKER_START
      ++ ('\n' :: (state_json R ++ '\n' :: STATE_MARKER_END)))
      = (match splitFirstSub ('\n' :: STATE_MARKER_END)
            (state_json R ++ '\n' :: STATE_MARKER_END) with
         | some (grp, _) => some grp
         | none => findStateGroup ("!-- PATCHER_STATE_START".toList
             ++ ('\n' :: (state_json R ++ '\n' :: STATE_MARKER_END)))) := rfl
  rw [hstep, hsplit]

/-- A concrete state with one completed iteration, used to instantiate the
round-trip laws. -/
def stateW : AgentState :=
  { issue_number := 7
    pr_number := some 12
    branch_name := "patcher/issue-7-fix-crash".toList
    iterations := [{ number := 1
                     status := .completed
                     changes := ["src/app.py".toList]
                     review_feedback := none
                     ci_status := some "success".toList
                     commit_sha := some "abc123".toList
                     timestamp := "2024-01-01T00:00:00".toList }]
    requirements_hash := "deadbeef".toList
    created_at := "2024-01-01T00:00:00".toList
    updated_at := "2024-01-02T00:00:00".toList }

/-- C2: the round-trip law `decode(mergeIntoBody(T, R)) = R` holds for every
state `R` and every body text `T` that does not already contain the start
marker as a substring: saving appends the fenced block after a blank line,
and loading recovers every field of `R` exactly (timestamps at serialized
precision). The unrestricted claim over all `T` is refuted by
`state_roundtrip_marker_counterexample`. -/
theorem state_roundtrip (T : Str) (R : AgentState)
    (h : containsSubL STATE_MARKER_START T = false) :
    load_from_pr_body (save_to_pr_body T R) = some R := by
  have hnb : hasStateBlock T = false := by
    rw [hasStateBlock, (splitFirstSub_none_iff STATE_MARKER_START T (by decide)).mpr h]
  rw [save_to_pr_body, hnb]
  simp only [Bool.false_eq_true, if_false]
  rw [load_from_pr_body, findStateGroup_fresh T R h]
  simp only [state_json, json_loads_dumpVal, from_to_dict]

set_option maxRecDepth 100000 in
/-- C2 counterexample: for a body text that already contains the start-marker
text (with no complete block), the merged body's first start-marker occurrence
is the leftover one from the body, the extracted group is garbage prefixed
with the real marker line, and decoding fails entirely instead of returning
the saved state. -/
theorem state_roundtrip_marker_counterexample :
    load_from_pr_body (save_to_pr_body STATE_MARKER_START stateW) = none
      ∧ (none : Option AgentState) ≠ some stateW := by
  exact ⟨by decide, by simp⟩

/-- C2 witness: the amended round trip at a concrete body and state. -/
theorem state_roundtrip_witness :
    containsSubL STATE_MARKER_START "Fixes the crash on empty input.".toList = false
      ∧ load_from_pr_body (save_to_pr_body "Fixes the crash on empty input.".toList stateW)
          = some stateW :=
  ⟨by decide, state_roundtrip _ stateW (by decide)⟩

/-! ### Removing the fenced block from a merged body -/

/-- Drop trailing newlines (the part of the visible text that the padding
`\n*` of the removal regex also consumes). -/
def rstripNl (s : Str) : Str := (s.reverse.dropWhile (· == '\n')).reverse

theorem strip_nil (f : Nat) : stripStateBlocksF f [] = [] := by
  cases f <;> rfl

theorem dropWhile_cons_pos (p : Char → Bool) (c : Char) (t : Str) (h : p c = true) :
    List.dropWhile p (c :: t) = List.dropWhile p t := by
  simp [List.dropWhile, h]

theorem dropWhile_cons_neg (p : Char → Bool) (c : Char) (t : Str) (h : p c = false) :
    List.dropWhile p (c :: t) = c :: t := by
  simp [List.dropWhile, h]

theorem dropWhile_append_all (p : Char → Bool) (r s : Str) (h : ∀ c ∈ r, p c = true) :
    List.dropWhile p (r ++ s) = List.dropWhile p s := by
  induction r with
  | nil => rfl
  | cons c t ih =>
      rw [List.cons_append, dropWhile_cons_pos p _ _ (h c (by simp))]
      exact ih (fun d hd => h d (by simp [hd]))

theorem dropWhile_append_stop (p : Char → Bool) (l1 l2 : Str)
    (h : List.dropWhile p l1 ≠ []) :
    List.dropWhile p (l1 ++ l2) = List.dropWhile p l1 ++ l2 := by
  induction l1 with
  | nil => simp at h
  | cons c t ih =>
      by_cases hc : p c = true
      · rw [List.cons_append, dropWhile_cons_pos p _ _ hc, dropWhile_cons_pos p _ _ hc]
        exact ih (by rwa [dropWhile_cons_pos p _ _ hc] at h)
      · have hc' : p c = false := by simpa using hc
        rw [List.cons_append, dropWhile_cons_neg p _ _ hc', dropWhile_cons_neg p _ _ hc',
          List.cons_append]

theorem dropWhile_nil_iff (p : Char → Bool) (l : Str) :
    List.dropWhile p l = [] ↔ ∀ c ∈ l, p c = true := by
  induction l with
  | nil => simp
  | cons c t ih =>
      by_cases hc : p c = true
      · rw [dropWhile_cons_pos p _ _ hc, ih]
        constructor
        · intro h d hd
          rcases List.mem_cons.mp hd with h1 | h2
          · exact h1 ▸ hc
          · exact h d h2
        · intro h d hd
          exact h d (by simp [hd])
      · have hc' : p c = false := by simpa using hc
        rw [dropWhile_cons_neg p _ _ hc']
        simp only [List.cons_ne_nil, false_iff]
        intro h
        exact hc (h c (by simp))

theorem mem_takeWhile_all (p : Char → Bool) (l : Str) :
    ∀ c ∈ List.takeWhile p l, p c = true := by
  induction l with
  | nil => simp
  | cons a t ih =>
      by_cases ha : p a = true
      · intro c hc
        rw [show List.takeWhile p (a :: t) = a :: List.takeWhile p t by
          simp [List.takeWhile, ha]] at hc
        rcases List.mem_cons.mp hc with h1 | h2
        · exact h1 ▸ ha
        · exact ih c h2
      · have ha' : p a = false := by simpa using ha
        intro c hc
        rw [show List.takeWhile p (a :: t) = [] by simp [List.takeWhile, ha']] at hc
        simp at hc

theorem rstripNl_decomp (V : Str) :
    rstripNl V ++ (List.takeWhile (· == '\n') V.reverse).reverse = V := by
  rw [rstripNl, ← List.reverse_append, List.takeWhile_append_dropWhile, List.reverse_reverse]

theorem rstripNl_all_nl (V : Str) (h : ∀ d ∈ V, d = '\n') : rstripNl V = [] := by
  rw [rstripNl]
  rw [(dropWhile_nil_iff _ _).mpr (fun c hc => by
    simp [h c (List.mem_reverse.mp hc)])]
  rfl

theorem rstripNl_cons (c : Char) (t : Str) (h : ¬ ∀ d ∈ c :: t, d = '\n') :
    rstripNl (c :: t) = c :: rstripNl t := by
  rw [rstripNl, rstripNl, List.reverse_cons]
  by_cases ht : ∀ d ∈ t, d = '\n'
  · have hc : ¬ c = '\n' := by
      intro hc
      exact h (fun d hd => by
        rcases List.mem_cons.mp hd with h1 | h2
        · exact h1 ▸ hc
        · exact ht d h2)
    rw [dropWhile_append_all _ _ _ (fun d hd => by
      simp [ht d (List.mem_reverse.mp hd)])]
    rw [dropWhile_cons_neg _ _ _ (by simp [hc])]
    rw [(dropWhile_nil_iff _ _).mpr (fun d hd => by
      simp [ht d (List.mem_reverse.mp hd)])]
    rfl
  · have hne : List.dropWhile (· == '\n') t.reverse ≠ [] := by
      intro hnil
      exact ht (fun d hd => by
        have := (dropWhile_nil_iff _ _).mp hnil d (List.mem_reverse.mpr hd)
        simpa using this)
    rw [dropWhile_append_stop _ _ _ hne, List.reverse_append]
    rfl

theorem pyStrip_append_ws (x r : Str) (hr : ∀ c ∈ r, isPySpace c = true) :
    pyStrip (x ++ r) = pyStrip x := by
  rw [pyStrip, pyStrip]
  cases hD : List.dropWhile isPySpace x with
  | nil =>
      have hx : ∀ c ∈ x, isPySpace c = true := (dropWhile_nil_iff _ _).mp hD
      rw [dropWhile_append_all _ x r hx, (dropWhile_nil_iff isPySpace r).mpr hr]
  | cons d t =>
      have hstep : List.dropWhile isPySpace (x ++ r)
          = List.dropWhile isPySpace x ++ r :=
        dropWhile_append_stop _ _ _ (by rw [hD]; simp)
      rw [hstep, hD, List.reverse_append,
        dropWhile_append_all _ r.reverse _ (fun c hc => hr c (List.mem_reverse.mp hc))]

theorem pyStrip_rstripNl (V : Str) : pyStrip (rstripNl V) = pyStrip V := by
  conv_rhs => rw [← rstripNl_decomp V]
  rw [pyStrip_append_ws _ _ (fun c hc => by
    have hmem := List.mem_reverse.mp hc
    have := mem_takeWhile_all (· == '\n') V.reverse c hmem
    have hc' : c = '\n' := by simpa using this
    simp [hc', isPySpace])]

/-- A text whose newline-stripped head is exactly the fenced block matches the
removal regex in full: the leading newlines, the block, and nothing after it. -/
theorem tryBlockMatch_block (R : AgentState)
    (hEND : containsSubL STATE_MARKER_END (state_json R) = false)
    (cs : Str) (hdrop : cs.dropWhile (· == '\n') = format_state_for_pr R) :
    tryBlockMatch cs = some [] := by
  have hsw : startsWithL STATE_MARKER_START (format_state_for_pr R) = true := by
    rw [show format_state_for_pr R
      = STATE_MARKER_START ++ ('\n' :: (state_json R ++ '\n' :: STATE_MARKER_END)) from rfl]
    exact startsWithL_self_append _ _
  have hdrop2 : (format_state_for_pr R).drop STATE_MARKER_START.length
      = '\n' :: (state_json R ++ '\n' :: STATE_MARKER_END) := by
    rw [show format_state_for_pr R
      = STATE_MARKER_START ++ ('\n' :: (state_json R ++ '\n' :: STATE_MARKER_END)) from rfl]
    exact List.drop_left _ _
  have hX : containsSubL STATE_MARKER_END ('\n' :: (state_json R ++ ['\n'])) = false := by
    rw [show ('\n' :: (state_json R ++ ['\n'])) = ['\n'] ++ (state_json R ++ ['\n']) from rfl]
    exact containsSubL_prepend_false _ _ _ (by decide)
      (containsSubL_append_false _ _ _ (by decide) hEND (by decide)) (by decide)
  have hlastX : ('\n' :: (state_json R ++ ['\n'])).getLast? = some '\n' := by
    rw [show ('\n' :: (state_json R ++ ['\n'])) = ('\n' :: state_json R) ++ ['\n'] by simp,
      List.getLast?_append_of_ne_nil _ (by simp)]
    rfl
  have hsplit : splitFirstSub STATE_MARKER_END
      ('\n' :: (state_json R ++ '\n' :: STATE_MARKER_END))
      = some ('\n' :: (state_json R ++ ['\n']), []) := by
    rw [show '\n' :: (state_json R ++ '\n' :: STATE_MARKER_END)
      = ('\n' :: (state_json R ++ ['\n'])) ++ STATE_MARKER_END ++ [] by simp]
    exact splitFirstSub_skip _ _ _ (by decide) (fun x1 x2 hx hne => by
      have := no_suffix_match_of_last_nl STATE_MARKER_END _ (STATE_MARKER_END ++ [])
        (by decide) hX hlastX x1 x2 hx hne
      simpa [List.append_assoc] using this)
  rw [tryBlockMatch, hdrop, hsw]
  simp only [if_true]
  rw [hdrop2, hsplit]
  rfl

/-- Scanning the visible region of a freshly merged body: the removal regex
fires exactly once, at the trailing-newline run of the visible text, and
consumes that run, the two padding newlines and the whole block. -/
theorem strip_scan (R : AgentState) (V : Str)
    (hEND : containsSubL STATE_MARKER_END (state_json R) = false)
    (hV : containsSubL STATE_MARKER_START V = false) :
    ∀ (V2 : Str) (fuel : Nat), (∃ x1, V = x1 ++ V2) → V2.length < fuel →
      stripStateBlocksF fuel (V2 ++ '\n' :: '\n' :: format_state_for_pr R)
        = rstripNl V2 := by
  have hcontx : containsSubL STATE_MARKER_START (V ++ ['\n', '\n']) = false :=
    containsSubL_append_false _ _ _ (by decide) hV (by decide)
  have hlast : (V ++ ['\n', '\n']).getLast? = some '\n' := by
    rw [List.getLast?_append_of_ne_nil _ (by simp)]
    rfl
  have hnosuffix := no_suffix_match_of_last_nl STATE_MARKER_START (V ++ ['\n', '\n'])
    (format_state_for_pr R) (by decide) hcontx hlast
  have hblockdrop : (format_state_for_pr R).dropWhile (· == '\n')
      = format_state_for_pr R := by
    rw [show format_state_for_pr R = '<' :: ("!-- PATCHER_STATE_START".toList
      ++ ('\n' :: (state_json R ++ '\n' :: STATE_MARKER_END))) from rfl]
    exact dropWhile_cons_neg _ _ _ (by decide)
  intro V2
  induction V2 with
  | nil =>
      intro fuel _ hfuel
      cases fuel with
      | zero => exact absurd hfuel (by simp)
      | succ f =>
          have hmatch : tryBlockMatch ('\n' :: '\n' :: format_state_for_pr R) = some [] := by
            refine tryBlockMatch_block R hEND _ ?_
            rw [dropWhile_cons_pos _ _ _ (by decide), dropWhile_cons_pos _ _ _ (by decide),
              hblockdrop]
          simp only [List.nil_append]
          have hstep : stripStateBlocksF (f + 1) ('\n' :: '\n' :: format_state_for_pr R)
              = (match tryBlockMatch ('\n' :: '\n' :: format_state_for_pr R) with
                 | some post => stripStateBlocksF f post
                 | none => '\n' :: stripStateBlocksF f ('\n' :: format_state_for_pr R)) := rfl
          rw [hstep, hmatch]
          show stripStateBlocksF f [] = rstripNl []
          rw [strip_nil]
          rfl
  | cons c V2' ih =>
      intro fuel hsuffix hfuel
      obtain ⟨x1, hx1⟩ := hsuffix
      cases fuel with
      | zero => exact absurd hfuel (by simp)
      | succ f =>
          simp only [List.cons_append]
          by_cases hall : ∀ d ∈ c :: V2', d = '\n'
          · have hdropall : (c :: (V2' ++ '\n' :: '\n' :: format_state_for_pr R)).dropWhile
                (· == '\n') = format_state_for_pr R := by
              rw [show c :: (V2' ++ '\n' :: '\n' :: format_state_for_pr R)
                = (c :: V2') ++ ('\n' :: '\n' :: format_state_for_pr R) from rfl]
              rw [dropWhile_append_all _ _ _ (fun d hd => by simp [hall d hd])]
              rw [dropWhile_cons_pos _ _ _ (by decide), dropWhile_cons_pos _ _ _ (by decide),
                hblockdrop]
            have hmatch := tryBlockMatch_block R hEND _ hdropall
            have hstep : stripStateBlocksF (f + 1)
                (c :: (V2' ++ '\n' :: '\n' :: format_state_for_pr R))
                = (match tryBlockMatch (c :: (V2' ++ '\n' :: '\n' :: format_state_for_pr R)) with
                   | some post => stripStateBlocksF f post
                   | none => c :: stripStateBlocksF f
                       (V2' ++ '\n' :: '\n' :: format_state_for_pr R)) := rfl
            rw [hstep, hmatch]
            show stripStateBlocksF f [] = rstripNl (c :: V2')
            rw [strip_nil, rstripNl_all_nl _ hall]
          · have hne : List.dropWhile (· == '\n') (c :: V2') ≠ [] := by
              intro hnil
              exact hall (fun d hd => by
                have := (dropWhile_nil_iff _ _).mp hnil d hd
                simpa using this)
            obtain ⟨y, hy⟩ : ∃ y, (c :: V2')
                = y ++ List.dropWhile (· == '\n') (c :: V2') :=
              ⟨_, (List.takeWhile_append_dropWhile (· == '\n') (c :: V2')).symm⟩
            have hnm : tryBlockMatch (c :: (V2' ++ '\n' :: '\n' :: format_state_for_pr R))
                = none := by
              have hdw : (c :: (V2' ++ '\n' :: '\n' :: format_state_for_pr R)).dropWhile
                  (· == '\n')
                  = List.dropWhile (· == '\n') (c :: V2')
                    ++ '\n' :: '\n' :: format_state_for_pr R := by
                rw [show c :: (V2' ++ '\n' :: '\n' :: format_state_for_pr R)
                  = (c :: V2') ++ ('\n' :: '\n' :: format_state_for_pr R) from rfl]
                exact dropWhile_append_stop _ _ _ hne
              have heq : V ++ ['\n', '\n']
                  = (x1 ++ y) ++ (List.dropWhile (· == '\n') (c :: V2') ++ ['\n', '\n']) := by
                conv_lhs => rw [hx1, hy]
                simp
              have hsw : startsWithL STATE_MARKER_START
                  (List.dropWhile (· == '\n') (c :: V2')
                    ++ '\n' :: '\n' :: format_state_for_pr R) = false := by
                have := hnosuffix (x1 ++ y)
                  (List.dropWhile (· == '\n') (c :: V2') ++ ['\n', '\n']) heq (by simp)
                rw [List.append_assoc] at this
                simpa using this
              rw [tryBlockMatch, hdw, hsw]
              simp
            have hstep : stripStateBlocksF (f + 1)
                (c :: (V2' ++ '\n' :: '\n' :: format_state_for_pr R))
                = (match tryBlockMatch (c :: (V2' ++ '\n' :: '\n' :: format_state_for_pr R)) with
                   | some post => stripStateBlocksF f post
                   | none => c :: stripStateBlocksF f
                       (V2' ++ '\n' :: '\n' :: format_state_for_pr R)) := rfl
            rw [hstep, hnm]
            show c :: stripStateBlocksF f (V2' ++ '\n' :: '\n' :: format_state_for_pr R)
              = rstripNl (c :: V2')
            rw [ih f ⟨x1 ++ [c], by rw [hx1]; simp⟩ (by
              have : (c :: V2').length = V2'.length + 1 := by simp
              omega)]
            rw [rstripNl_cons c V2' hall]

/-- C8: whenever the body is a merged state (a visible text without the start
marker, followed by the blank-line padding and the fenced block) and the
serialized JSON does not contain the end-marker text, `extract_visible_body`
removes exactly the fenced block and its surrounding newline padding — and
then strips the remaining text: the result is `strip(visible)`, not the
byte-identical visible text. The byte-identity of the unrestricted claim is
refuted by `extract_visible_strip_counterexample`. -/
theorem extract_visible_spec (V : Str) (R : AgentState)
    (hV : containsSubL STATE_MARKER_START V = false)
    (hEND : containsSubL STATE_MARKER_END (state_json R) = false) :
    extract_visible_body (save_to_pr_body V R) = pyStrip V := by
  have hnb : hasStateBlock V = false := by
    rw [hasStateBlock, (splitFirstSub_none_iff STATE_MARKER_START V (by decide)).mpr hV]
  rw [save_to_pr_body, hnb]
  simp only [Bool.false_eq_true, if_false]
  rw [extract_visible_body]
  rw [strip_scan R V hEND hV V _ ⟨[], by simp⟩ (by simp)]
  exact pyStrip_rstripNl V

set_option maxRecDepth 100000 in
/-- C8 counterexample: a body whose visible part is `" x"` (with the fenced
block appended after the blank-line padding) contains a fenced block, yet
`extract_visible_body` returns `"x"`, not the byte-identical remaining
content `" x"` — the final `strip()` also removes the visible text's own
surrounding whitespace. -/
theorem extract_visible_strip_counterexample :
    hasStateBlock (" x\n\n".toList ++ format_state_for_pr stateW) = true
      ∧ extract_visible_body (" x\n\n".toList ++ format_state_for_pr stateW) = "x".toList
      ∧ ("x".toList : Str) ≠ " x".toList :=
  ⟨by decide, by decide, by decide⟩

set_option maxRecDepth 100000 in
/-- C8 witness: the amended extraction law at a concrete body and state. -/
theorem extract_visible_spec_witness :
    containsSubL STATE_MARKER_START "Adds input validation.".toList = false
      ∧ containsSubL STATE_MARKER_END (state_json stateW) = false
      ∧ extract_visible_body (save_to_pr_body "Adds input validation.".toList stateW)
          = pyStrip "Adds input validation.".toList :=
  ⟨by decide, by decide, extract_visible_spec _ stateW (by decide) (by decide)⟩

end Elpatcher
